import Mathlib

/-!
TLRefCount: hybrid thread-local / global reference count

Shallow embedding of `folly/experimental/TLRefCount.h`.

* `Int` of the source is `int64_t`.  Signed overflow of the plain field `count_` and of
  `value + 1` is undefined in the source, and counts of the order of `2^63` are out of reach
  of any execution, so values are taken as mathematical integers (Lean `Int`).  The atomic
  decrement of `globalCount_`, whose wrap-around is defined, also has its definition with the
  width of `int64_t` (`decrement64`), equal to the other where `globalCount_ - 1` is an
  `int64_t`.
* A thread is a natural number.  `folly::ThreadLocal<LocalRefCount, TLRefCount>` is a registry
  from threads to cells, kept as an association list in creation order; the cell of a thread is
  created on first access with the constructor of `LocalRefCount`.
* Operations are embedded as whole (non-overlapping) calls.  The two loads of `state_` inside
  `LocalRefCount::update` are parameters of `update`, so that the same definition also describes
  a call that overlaps a promotion.  The mutexes are free between whole calls and are not part
  of the state.
* A failing `assert` is the result `none`.
* One call that overlaps `useGlobal()` is a step relation (`stepBuffered`, `stepPromoter`,
  `flushBuffer`) over the loads, stores and lock-guarded sections of both, interleaved in any
  order.  The store to the plain field `count_` goes through a store buffer, since the source
  has no fence after it; `stepThread` is the step of the executions in which the store is in
  memory at once.  `thread_alone` and `promoter_alone` relate the steps to the whole calls.
* `stackTraceGetter` of `folly/SingletonStackTrace.cpp` takes the functions of the symbolizer,
  which are defined elsewhere, as parameters.
-/

namespace folly

/-- The `enum class State` of `TLRefCount`. -/
inductive State where
  | LOCAL
  | GLOBAL_TRANSITION
  | GLOBAL
deriving DecidableEq

/-- The class `TLRefCount::LocalRefCount` (fields `count_`, `collectCount_`, `collectDone_`;
the back reference `refCount_` is passed explicitly where it is used). -/
structure LocalRefCount where
  count_ : Int
  collectCount_ : Int
  collectDone_ : Bool
deriving DecidableEq

namespace LocalRefCount

/-- The constructor `LocalRefCount(TLRefCount&)` with the default member initialisers
`count_{0}`, `collectCount_{0}`, `collectDone_{false}`. -/
def new : LocalRefCount :=
  { count_ := 0, collectCount_ := 0, collectDone_ := false }

/-- `LocalRefCount::collect`, lines 115-125.  The argument `globalCount` is
`refCount_.globalCount_`; the result is the cell and the new `refCount_.globalCount_`. -/
def collect (c : LocalRefCount) (globalCount : Int) : LocalRefCount × Int :=
  if c.collectDone_ then
    (c, globalCount)
  else
    ({ c with collectCount_ := c.count_, collectDone_ := true }, globalCount + c.count_)

/-- `LocalRefCount::update`, lines 136-155.  `p1` is the value of `refCount_.state_` loaded at
line 137 and `p2` the value loaded at line 143.  The result is the returned flag and the cell. -/
def update (c : LocalRefCount) (p1 p2 : State) (delta : Int) : Bool × LocalRefCount :=
  if p1 ≠ State.LOCAL then
    (false, c)
  else
    let count := c.count_ + delta
    let c1 : LocalRefCount := { c with count_ := count }
    if p2 ≠ State.LOCAL then
      if !c1.collectDone_ then
        (true, c1)
      else if c1.collectCount_ ≠ count then
        (false, c1)
      else
        (true, c1)
    else
      (true, c1)

end LocalRefCount

/-- The cell registered for thread `t`, if any (first entry of the thread). -/
def findCell : List (Nat × LocalRefCount) → Nat → Option LocalRefCount
  | [], _ => none
  | (u, c) :: rest, t => if u = t then some c else findCell rest t

/-- Write back the cell of thread `t` (its first entry; a thread without entry gets one at the
end of the registry). -/
def storeCell : List (Nat × LocalRefCount) → Nat → LocalRefCount → List (Nat × LocalRefCount)
  | [], t, c => [(t, c)]
  | (u, d) :: rest, t, c => if u = t then (t, c) :: rest else (u, d) :: storeCell rest t c

/-- Drop the entry of thread `t` from the registry. -/
def eraseCell : List (Nat × LocalRefCount) → Nat → List (Nat × LocalRefCount)
  | [], _ => []
  | (u, d) :: rest, t => if u = t then rest else (u, d) :: eraseCell rest t

/-- The loop `for (auto& count : accessor) count.collect();` of `useGlobal`, lines 89-92. -/
def collectAll : List (Nat × LocalRefCount) → Int → List (Nat × LocalRefCount) × Int
  | [], g => ([], g)
  | (t, c) :: rest, g =>
    ((t, (c.collect g).1) :: (collectAll rest (c.collect g).2).1,
      (collectAll rest (c.collect g).2).2)

/-- The class `TLRefCount`: `state_`, the thread-local `localCount_` and `globalCount_`. -/
structure TLRefCount where
  state_ : State
  localCount_ : List (Nat × LocalRefCount)
  globalCount_ : Int
deriving DecidableEq

namespace TLRefCount

/-- The constructor: `state_{State::LOCAL}`, no cell yet, `globalCount_{1}`. -/
def new : TLRefCount :=
  { state_ := State.LOCAL, localCount_ := [], globalCount_ := 1 }

/-- The access `*localCount_` by thread `t`: the cell of `t`, created by
`new LocalRefCount(*this)` when `t` has none. -/
def access (s : TLRefCount) (t : Nat) : LocalRefCount × TLRefCount :=
  match findCell s.localCount_ t with
  | some c => (c, s)
  | none => (LocalRefCount.new, { s with localCount_ := storeCell s.localCount_ t LocalRefCount.new })

/-- The global path of `operator++`, lines 49-58, run without interference: the assertion, then
the compare-and-swap loop, which returns 0 on a zero value and otherwise stores and returns
`value + 1` (a spurious failure of `compare_exchange_weak` reloads the same value). -/
def incrementGlobal (s : TLRefCount) : Option (Int × TLRefCount) :=
  if s.state_ ≠ State.GLOBAL then
    none
  else
    let value := s.globalCount_
    if value = 0 then
      some (0, s)
    else
      some (value + 1, { s with globalCount_ := value + 1 })

/-- The global path of `operator--`, lines 72-74: the assertion, then `--globalCount_`. -/
def decrementGlobal (s : TLRefCount) : Option (Int × TLRefCount) :=
  if s.state_ ≠ State.GLOBAL then
    none
  else
    some (s.globalCount_ - 1, { s with globalCount_ := s.globalCount_ - 1 })

/-- The state after `++localCount` or `--localCount` by thread `t` with the given `delta`,
together with the flag returned by `LocalRefCount::update`. -/
def bump (s : TLRefCount) (t : Nat) (delta : Int) : Bool × TLRefCount :=
  let c := (s.access t).1
  let s0 := (s.access t).2
  let r := c.update s0.state_ s0.state_ delta
  (r.1, { s0 with localCount_ := storeCell s0.localCount_ t r.2 })

/-- `TLRefCount::operator++` called by thread `t`, lines 38-59.  The lock and unlock of
`globalMutex_` at lines 45-47 change nothing in a whole call: the mutex is free. -/
def increment (s : TLRefCount) (t : Nat) : Option (Int × TLRefCount) :=
  if (s.bump t 1).1 then
    some (42, (s.bump t 1).2)
  else
    incrementGlobal (s.bump t 1).2

/-- `TLRefCount::operator--` called by thread `t`, lines 61-75, with lines 68-70 as in
`increment`. -/
def decrement (s : TLRefCount) (t : Nat) : Option (Int × TLRefCount) :=
  if (s.bump t (-1)).1 then
    some (42, (s.bump t (-1)).2)
  else
    decrementGlobal (s.bump t (-1)).2

/-- `TLRefCount::operator*`, lines 77-82. -/
def load (s : TLRefCount) : Int × TLRefCount :=
  if s.state_ ≠ State.GLOBAL then (42, s) else (s.globalCount_, s)

/-- `TLRefCount::useGlobal`, lines 84-95: `state_` is set to `GLOBAL_TRANSITION`, every
registered cell is collected, `state_` is set to `GLOBAL`. -/
def useGlobal (s : TLRefCount) : TLRefCount :=
  let s1 : TLRefCount := { s with state_ := State.GLOBAL_TRANSITION }
  let r := collectAll s1.localCount_ s1.globalCount_
  let s2 : TLRefCount := { s1 with localCount_ := r.1, globalCount_ := r.2 }
  { s2 with state_ := State.GLOBAL }

/-- A call of `collect()` on the cell of thread `t`. -/
def collectCell (s : TLRefCount) (t : Nat) : TLRefCount :=
  match findCell s.localCount_ t with
  | none => s
  | some c =>
    { s with localCount_ := storeCell s.localCount_ t (c.collect s.globalCount_).1,
             globalCount_ := (c.collect s.globalCount_).2 }

/-- Teardown of the cell of thread `t`: `~LocalRefCount` runs `collect()`, lines 111-113, and
the cell leaves the registry. -/
def destroyLocal (s : TLRefCount) (t : Nat) : TLRefCount :=
  match findCell s.localCount_ t with
  | none => s
  | some c =>
    { s with localCount_ := eraseCell s.localCount_ t,
             globalCount_ := (c.collect s.globalCount_).2 }

end TLRefCount

/-- The two arithmetic calls of the public interface. -/
inductive Op where
  | inc
  | dec
deriving DecidableEq

/-- One call of `operator++` or `operator--` by a thread. -/
def step (s : TLRefCount) (e : Nat × Op) : Option (Int × TLRefCount) :=
  match e.2 with
  | Op.inc => s.increment e.1
  | Op.dec => s.decrement e.1

/-- A sequence of calls, each by its own thread, run one after the other; `none` when an
assertion fails on the way. -/
def run : List (Nat × Op) → TLRefCount → Option TLRefCount
  | [], s => some s
  | e :: es, s =>
    match step s e with
    | none => none
    | some r => run es r.2

/-- Number of calls of kind `o` in a sequence of calls. -/
def countOp (o : Op) (es : List (Nat × Op)) : Int :=
  ((es.filter (fun e => e.2 = o)).length : Int)

/-- Sum of `count_` over the cells that are not folded. -/
def unfoldedSum : List (Nat × LocalRefCount) → Int
  | [] => 0
  | (_, c) :: rest => (if c.collectDone_ then 0 else c.count_) + unfoldedSum rest

/-- The quantity of invariant I1: `globalCount_` plus the deltas not yet folded. -/
def TLRefCount.Q (s : TLRefCount) : Int :=
  s.globalCount_ + unfoldedSum s.localCount_

/-- States reached from a fresh counter by whole calls of the public operations: increment,
decrement, `useGlobal()` and the teardown of a cell (`operator*` writes nothing, so it adds no
state). -/
inductive Reachable : TLRefCount → Prop
  | init : Reachable TLRefCount.new
  | increment {s s' : TLRefCount} {t : Nat} {r : Int} :
      Reachable s → s.increment t = some (r, s') → Reachable s'
  | decrement {s s' : TLRefCount} {t : Nat} {r : Int} :
      Reachable s → s.decrement t = some (r, s') → Reachable s'
  | useGlobal {s : TLRefCount} : Reachable s → Reachable s.useGlobal
  | destroyLocal {s : TLRefCount} {t : Nat} : Reachable s → Reachable (s.destroyLocal t)

/-- The cell thread `t` works on: its registered cell, or a newly constructed one. -/
def cellOf (s : TLRefCount) (t : Nat) : LocalRefCount :=
  (findCell s.localCount_ t).getD LocalRefCount.new

/-- What a cell still owes to `globalCount_`: its `count_` while it is not folded. -/
def pending (c : LocalRefCount) : Int :=
  if c.collectDone_ then 0 else c.count_

/-- No cell of the registry is folded. -/
def NoneFolded (r : List (Nat × LocalRefCount)) : Prop :=
  ∀ e ∈ r, e.2.collectDone_ = false

/-- The calls of a sequence run one after the other, with what each call returned and the
state it left; `none` when an assertion fails on the way. -/
def runTrace : List (Nat × Op) → TLRefCount → Option (List (Int × TLRefCount))
  | [], _ => some []
  | e :: es, s =>
    match step s e with
    | none => none
    | some r =>
      match runTrace es r.2 with
      | none => none
      | some tr => some (r :: tr)

/-- Frame condition on the registry for a call by thread `t`: every registered cell is still
registered with the same `count_`, `collectCount_` and `collectDone_`, and the only entry that
may have appeared is a newly constructed cell of `t` (its first access). -/
def CellsKept (s s' : TLRefCount) (t : Nat) : Prop :=
  (∀ u c, findCell s.localCount_ u = some c → findCell s'.localCount_ u = some c) ∧
  (∀ u c, findCell s'.localCount_ u = some c →
    findCell s.localCount_ u = some c ∨ (u = t ∧ c = LocalRefCount.new))

/-- Frame condition of the local fast path for a call by thread `t` with the given `delta`:
`globalCount_` and `state_` are unchanged, every other thread keeps its registry entry, and the
cell of `t` has `count_` moved by `delta` with `collectCount_` and `collectDone_` unchanged. -/
def FastPathFrame (s s' : TLRefCount) (t : Nat) (delta : Int) : Prop :=
  s'.globalCount_ = s.globalCount_ ∧ s'.state_ = s.state_ ∧
  (∀ u, u ≠ t → findCell s'.localCount_ u = findCell s.localCount_ u) ∧
  ∃ c', findCell s'.localCount_ t = some c' ∧ c'.count_ = (cellOf s t).count_ + delta ∧
    c'.collectCount_ = (cellOf s t).collectCount_ ∧ c'.collectDone_ = (cellOf s t).collectDone_

/-- `collect()` called `n` times in a row on one cell. -/
def collectTimes : Nat → LocalRefCount → Int → LocalRefCount × Int
  | 0, c, g => (c, g)
  | n + 1, c, g => collectTimes n (c.collect g).1 (c.collect g).2

/-- Scenario B: two threads, each with 1000 increments followed by 999 decrements. -/
def scenarioB : List (Nat × Op) :=
  List.replicate 1000 (0, Op.inc) ++ List.replicate 999 (0, Op.dec) ++
    (List.replicate 1000 (1, Op.inc) ++ List.replicate 999 (1, Op.dec))

/-- Scenario C after its first two calls, `useGlobal()` and one decrement by thread 0 on a
fresh counter: global phase, `globalCount_ = 0`. -/
def atZero : TLRefCount :=
  { state_ := State.GLOBAL, localCount_ := [(0, LocalRefCount.new)], globalCount_ := 0 }

/-- A counter in the global phase whose holders released once more than they held:
the state after `useGlobal()` and two decrements by thread 0 on a fresh counter. -/
def belowZero : TLRefCount :=
  { state_ := State.GLOBAL, localCount_ := [(0, LocalRefCount.new)], globalCount_ := -1 }

/-! ## The width of `globalCount_` -/

/-- The least value of `int64_t`. -/
def INT64_MIN : Int := -9223372036854775808

/-- The greatest value of `int64_t`. -/
def INT64_MAX : Int := 9223372036854775807

/-- The value of `int64_t` that an integer is reduced to by two's complement arithmetic, which
is the arithmetic of `std::atomic<int64_t>`. -/
def wrapInt64 (x : Int) : Int :=
  (x + 9223372036854775808) % 18446744073709551616 - 9223372036854775808

/-- The global path of `operator--`, lines 72-74, with the width of `globalCount_`: the
assertion, then `--globalCount_` on `std::atomic<int64_t>`, which stores and returns the
value reduced to `int64_t`. -/
def TLRefCount.decrementGlobal64 (s : TLRefCount) : Option (Int × TLRefCount) :=
  if s.state_ ≠ State.GLOBAL then
    none
  else
    some (wrapInt64 (s.globalCount_ - 1),
      { s with globalCount_ := wrapInt64 (s.globalCount_ - 1) })

/-- `TLRefCount::operator--` called by thread `t`, lines 61-75, with the width of
`globalCount_` on the global path. -/
def TLRefCount.decrement64 (s : TLRefCount) (t : Nat) : Option (Int × TLRefCount) :=
  if (s.bump t (-1)).1 then
    some (42, (s.bump t (-1)).2)
  else
    TLRefCount.decrementGlobal64 (s.bump t (-1)).2

/-- A counter in the global phase whose `globalCount_` is the least `int64_t`. -/
def atInt64Min : TLRefCount :=
  { state_ := State.GLOBAL, localCount_ := [], globalCount_ := INT64_MIN }

/-! ## Sequences of public operations -/

/-- The public operations, with the calling thread where the operation has one. -/
inductive Call where
  | increment (t : Nat)
  | decrement (t : Nat)
  | load
  | useGlobal
  | destroyLocal (t : Nat)
deriving DecidableEq

/-- One whole call of a public operation: the value it returns (0 for the two operations that
return nothing) and the state it leaves; `none` when an assertion fails. -/
def call (s : TLRefCount) : Call → Option (Int × TLRefCount)
  | Call.increment t => s.increment t
  | Call.decrement t => s.decrement t
  | Call.load => some s.load
  | Call.useGlobal => some (0, s.useGlobal)
  | Call.destroyLocal t => some (0, s.destroyLocal t)

/-- A sequence of whole calls run one after the other. -/
def runCalls : List Call → TLRefCount → Option TLRefCount
  | [], s => some s
  | c :: cs, s =>
    match call s c with
    | none => none
    | some r => runCalls cs r.2

/-- Line 87 of `useGlobal`: `state_ = State::GLOBAL_TRANSITION`. -/
def useGlobalEnter (s : TLRefCount) : TLRefCount :=
  { s with state_ := State.GLOBAL_TRANSITION }

/-- Lines 89-92 of `useGlobal`: the walk over the cells of all threads. -/
def useGlobalWalk (s : TLRefCount) : TLRefCount :=
  { s with localCount_ := (collectAll s.localCount_ s.globalCount_).1,
           globalCount_ := (collectAll s.localCount_ s.globalCount_).2 }

/-- Line 94 of `useGlobal`: `state_ = State::GLOBAL`. -/
def useGlobalLeave (s : TLRefCount) : TLRefCount :=
  { s with state_ := State.GLOBAL }

/-- The order LOCAL < GLOBAL_TRANSITION < GLOBAL of the phases, as a rank. -/
def State.rank : State → Nat
  | State.LOCAL => 0
  | State.GLOBAL_TRANSITION => 1
  | State.GLOBAL => 2

/-- The values `state_` has after each statement of `useGlobal`, and after a whole call of
any other operation (none of which writes `state_`). -/
def phasesOfCall (s : TLRefCount) (c : Call) : Option (List State × TLRefCount) :=
  match c with
  | Call.useGlobal =>
    some ([(useGlobalEnter s).state_, (useGlobalWalk (useGlobalEnter s)).state_,
        (useGlobalLeave (useGlobalWalk (useGlobalEnter s))).state_],
      useGlobalLeave (useGlobalWalk (useGlobalEnter s)))
  | _ =>
    match call s c with
    | none => none
    | some r => some ([r.2.state_], r.2)

/-- The successive values of `state_` over a sequence of calls (the value before the first call
is not included). -/
def phasesAfter : List Call → TLRefCount → Option (List State)
  | [], _ => some []
  | c :: cs, s =>
    match phasesOfCall s c with
    | none => none
    | some r =>
      match phasesAfter cs r.2 with
      | none => none
      | some h => some (r.1 ++ h)

/-- The successive values of `state_` from the state `s` on, over a sequence of calls. -/
def phaseHistory (cs : List Call) (s : TLRefCount) : Option (List State) :=
  (phasesAfter cs s).map (fun h => s.state_ :: h)

/-- A list of phases never decreases: every value is at most every later value. -/
def NeverDecreases (h : List State) : Prop :=
  h.Pairwise (fun a b => a.rank ≤ b.rank)

/-- Number of `useGlobal()` calls in a sequence. -/
def numUseGlobal (cs : List Call) : Nat :=
  (cs.filter (fun c => c = Call.useGlobal)).length

/-- Number of increments in a sequence of calls. -/
def numIncrements (cs : List Call) : Int :=
  ((cs.filter (fun c => match c with | Call.increment _ => true | _ => false)).length : Int)

/-- Number of decrements in a sequence of calls. -/
def numDecrements (cs : List Call) : Int :=
  ((cs.filter (fun c => match c with | Call.decrement _ => true | _ => false)).length : Int)

/-- The calls of a sequence that are not teardowns of a cell. -/
def withoutTeardown (cs : List Call) : List Call :=
  cs.filter (fun c => match c with | Call.destroyLocal _ => false | _ => true)

/-- One call of a history: the call, `globalCount_` before it, and the value it returned. -/
structure Event where
  call : Call
  globalBefore : Int
  result : Int
deriving DecidableEq

/-- The history of a sequence of whole calls and the state it ends in. -/
def events : List Call → TLRefCount → Option (List Event × TLRefCount)
  | [], s => some ([], s)
  | c :: cs, s =>
    match call s c with
    | none => none
    | some r =>
      match events cs r.2 with
      | none => none
      | some h => some ({ call := c, globalBefore := s.globalCount_, result := r.1 } :: h.1, h.2)

/-- Increments of a history that returned a nonzero value. -/
def nonzeroIncrements : List Event → Int
  | [] => 0
  | e :: es =>
    (match e.call with
      | Call.increment _ => if e.result ≠ 0 then 1 else 0
      | _ => 0) + nonzeroIncrements es

/-- Decrements of a history. -/
def decrementsOf : List Event → Int
  | [] => 0
  | e :: es =>
    (match e.call with
      | Call.decrement _ => 1
      | _ => 0) + decrementsOf es

/-- Increments of a history that returned 0 although they stored a value: those that found
`globalCount_ = -1`. -/
def zeroStoringIncrements : List Event → Int
  | [] => 0
  | e :: es =>
    (match e.call with
      | Call.increment _ => if e.result = 0 ∧ e.globalBefore = -1 then 1 else 0
      | _ => 0) + zeroStoringIncrements es

/-- States reached from a fresh counter by whole calls among which `useGlobal()` has completed
at least once. -/
inductive Promoted : TLRefCount → Prop
  | useGlobal {s : TLRefCount} : Reachable s → Promoted s.useGlobal
  | again {s : TLRefCount} : Promoted s → Promoted s.useGlobal
  | increment {s s' : TLRefCount} {t : Nat} {r : Int} :
      Promoted s → s.increment t = some (r, s') → Promoted s'
  | decrement {s s' : TLRefCount} {t : Nat} {r : Int} :
      Promoted s → s.decrement t = some (r, s') → Promoted s'
  | destroyLocal {s : TLRefCount} {t : Nat} : Promoted s → Promoted (s.destroyLocal t)

/-- In the global phase every cell that is not folded has `count_ = 0`. -/
def UnfoldedAreZero (r : List (Nat × LocalRefCount)) : Prop :=
  ∀ e ∈ r, e.2.collectDone_ = false → e.2.count_ = 0

/-- A fresh counter after one decrement by thread 0 in the local phase: `Q` is 0. -/
def localAtZero : TLRefCount :=
  { state_ := State.LOCAL,
    localCount_ := [(0, { count_ := -1, collectCount_ := 0, collectDone_ := false })],
    globalCount_ := 1 }

/-- A fresh counter after `useGlobal()` and one increment by thread 3, whose cell is created
after the promotion. -/
def lateCell : TLRefCount :=
  { state_ := State.GLOBAL, localCount_ := [(3, LocalRefCount.new)], globalCount_ := 2 }

/-! ## One call racing with `useGlobal()` -/

/-- The amount `update` is called with: 1 by `operator++`, -1 by `operator--`. -/
def Op.delta : Op → Int
  | Op.inc => 1
  | Op.dec => -1

/-- The check of `update` under `collectMutex_`, lines 144-151, on the cell as it is then and
with `count`, the value the caller's write produced. -/
def LocalRefCount.recheck (c : LocalRefCount) (count : Int) : Bool :=
  if !c.collectDone_ then
    true
  else if c.collectCount_ ≠ count then
    false
  else
    true

/-- The write `count_ += delta` of `update`, line 141, by thread `t`. -/
def writeCount (s : TLRefCount) (t : Nat) (delta : Int) : TLRefCount :=
  { s with localCount_ :=
      storeCell s.localCount_ t { cellOf s t with count_ := (cellOf s t).count_ + delta } }

/-- Where a thread stands inside `operator++` or `operator--`: before the first load of
`state_` (line 137), before the write of `count_` (line 141), before the second load of
`state_` (line 143), before the check under `collectMutex_` (lines 144-151), before the load
of `state_` on the global path (line 45 or 68), before the lock of `globalMutex_` (line 46 or
69), before the assertion and the arithmetic on `globalCount_` (lines 49-58 or 72-74); or
returned, through the fast path or not, with its result; or stopped by the assertion. -/
inductive ThreadPc where
  | firstRead
  | write
  | secondRead (count : Int)
  | check (count : Int)
  | globalPath
  | lockMutex
  | arithmetic
  | returned (fast : Bool) (result : Int)
  | assertFailed
deriving DecidableEq

/-- Where the thread that runs `useGlobal()` stands: before lines 85-87 (lock of
`globalMutex_`, `state_ = GLOBAL_TRANSITION`), before `collect()` on the cell at position `i`
of the registry (line 91), before line 94 (`state_ = GLOBAL`), before the release of
`globalMutex_` (line 95), or finished. -/
inductive PromoterPc where
  | enter
  | walk (i : Nat)
  | leave
  | unlock
  | finished
deriving DecidableEq

/-- A counter with one thread inside an increment or decrement and one thread inside
`useGlobal()`. -/
structure Race where
  counter : TLRefCount
  thread : ThreadPc
  promoter : PromoterPc
deriving DecidableEq

/-- `collect()` on the cell at position `i` of the registry. -/
def collectAt : List (Nat × LocalRefCount) → Nat → Int → List (Nat × LocalRefCount) × Int
  | [], _, g => ([], g)
  | (u, c) :: rest, 0, g => ((u, (c.collect g).1) :: rest, (c.collect g).2)
  | e :: rest, i + 1, g => (e :: (collectAt rest i g).1, (collectAt rest i g).2)

/-- Line 91 of `useGlobal` for the cell at position `i` of the registry. -/
def collectCellAt (s : TLRefCount) (i : Nat) : TLRefCount :=
  { s with localCount_ := (collectAt s.localCount_ i s.globalCount_).1,
           globalCount_ := (collectAt s.localCount_ i s.globalCount_).2 }

/-- The promoter holds `globalMutex_` from line 85 to its return. -/
def Race.mutexHeld (c : Race) : Bool :=
  match c.promoter with
  | PromoterPc.enter => false
  | PromoterPc.finished => false
  | _ => true

/-- The arithmetic of the global path of the call `op`. -/
def globalArithmetic (op : Op) (s : TLRefCount) : Option (Int × TLRefCount) :=
  match op with
  | Op.inc => s.incrementGlobal
  | Op.dec => s.decrementGlobal

/-- One step of thread `t` inside the call `op` in an execution where the store of line 141
is in memory as soon as it is issued (a sequentially consistent execution); `stepBuffered`
is the step without that assumption.  A thread that has returned, and a thread that waits for
`globalMutex_` while the promoter holds it, do not move. -/
def stepThread (t : Nat) (op : Op) (c : Race) : Race :=
  match c.thread with
  | ThreadPc.firstRead =>
    if c.counter.state_ ≠ State.LOCAL then { c with thread := ThreadPc.globalPath }
    else { c with thread := ThreadPc.write }
  | ThreadPc.write =>
    { c with
      counter := writeCount c.counter t op.delta,
      thread := ThreadPc.secondRead ((cellOf c.counter t).count_ + op.delta) }
  | ThreadPc.secondRead count =>
    if c.counter.state_ ≠ State.LOCAL then { c with thread := ThreadPc.check count }
    else { c with thread := ThreadPc.returned true 42 }
  | ThreadPc.check count =>
    if (cellOf c.counter t).recheck count then { c with thread := ThreadPc.returned true 42 }
    else { c with thread := ThreadPc.globalPath }
  | ThreadPc.globalPath =>
    if c.counter.state_ = State.GLOBAL_TRANSITION then { c with thread := ThreadPc.lockMutex }
    else { c with thread := ThreadPc.arithmetic }
  | ThreadPc.lockMutex =>
    if c.mutexHeld then c else { c with thread := ThreadPc.arithmetic }
  | ThreadPc.arithmetic =>
    match globalArithmetic op c.counter with
    | none => { c with thread := ThreadPc.assertFailed }
    | some r => { c with counter := r.2, thread := ThreadPc.returned false r.1 }
  | ThreadPc.returned _ _ => c
  | ThreadPc.assertFailed => c

/-- One step of the thread inside `useGlobal()`. -/
def stepPromoter (c : Race) : Race :=
  match c.promoter with
  | PromoterPc.enter =>
    { c with counter := useGlobalEnter c.counter, promoter := PromoterPc.walk 0 }
  | PromoterPc.walk i =>
    if i < c.counter.localCount_.length then
      { c with counter := collectCellAt c.counter i, promoter := PromoterPc.walk (i + 1) }
    else { c with promoter := PromoterPc.leave }
  | PromoterPc.leave =>
    { c with counter := useGlobalLeave c.counter, promoter := PromoterPc.unlock }
  | PromoterPc.unlock => { c with promoter := PromoterPc.finished }
  | PromoterPc.finished => c

/-- A sequentially consistent interleaving: at each position `true` lets the calling thread
take a step, its store in memory at once, and `false` the promoter. -/
def runSchedule (t : Nat) (op : Op) : List Bool → Race → Race
  | [], c => c
  | true :: rest, c => runSchedule t op rest (stepThread t op c)
  | false :: rest, c => runSchedule t op rest (stepPromoter c)

/-- `n` steps of the promoter. -/
def promoterSteps : Nat → Race → Race
  | 0, c => c
  | n + 1, c => promoterSteps n (stepPromoter c)

/-- `n` steps of the calling thread. -/
def threadSteps (t : Nat) (op : Op) : Nat → Race → Race
  | 0, c => c
  | n + 1, c => threadSteps t op n (stepThread t op c)

/-- Both threads run to their end after an interleaving: the promoter first, which needs at
most one step for each cell and four more, then the calling thread, which needs at most 7. -/
def finish (t : Nat) (op : Op) (c : Race) : Race :=
  threadSteps t op 7 (promoterSteps (c.counter.localCount_.length + 4) c)

/-- The start of the race: thread `t` has accessed its cell (line 39 or 62) and is about to
call `update`, and `useGlobal()` is about to start. -/
def Race.start (s : TLRefCount) (t : Nat) : Race :=
  { counter := (s.access t).2, thread := ThreadPc.firstRead, promoter := PromoterPc.enter }

/-- The end of the race of the call `op` by thread `t` with `useGlobal()` on the counter `s`
under the sequentially consistent interleaving `sched`. -/
def raceEnd (s : TLRefCount) (t : Nat) (op : Op) (sched : List Bool) : Race :=
  finish t op (runSchedule t op sched (Race.start s t))

/-- The interleaving in which the promoter folds the cell of the caller between the caller's
first load of `state_` and its write. -/
def foldBeforeWrite : List Bool :=
  [true, false, false, true, true, true, false, false, false, true, true]

/-- The interleaving in which the caller finishes before the promoter starts. -/
def callFirst : List Bool :=
  [true, true, true, false, false, false, false, false]

/-- The race with the store buffer of the calling thread.  `count_` is a plain field, written
at line 141 outside `collectMutex_`, and no fence stands between that store and the load of
`state_` at line 143: the store is held in `buffer` until it is flushed to memory. -/
structure BufferedRace where
  race : Race
  buffer : Option Int
deriving DecidableEq

/-- Who moves: the calling thread, the promoter, or the memory system, which takes the
buffered store of the calling thread to memory. -/
inductive Turn where
  | thread
  | promoter
  | flush
deriving DecidableEq

/-- The store of the value `n` to `count_` of the cell of thread `t`, as it reaches memory:
the other fields of the cell are those in memory at that time. -/
def setCount (s : TLRefCount) (t : Nat) (n : Int) : TLRefCount :=
  { s with localCount_ := storeCell s.localCount_ t { cellOf s t with count_ := n } }

/-- The buffered store of thread `t`, if there is one, reaches memory. -/
def flushBuffer (t : Nat) (b : BufferedRace) : BufferedRace :=
  match b.buffer with
  | none => b
  | some n => { race := { b.race with counter := setCount b.race.counter t n }, buffer := none }

/-- One step of thread `t` inside the call `op`.  The write of line 141 computes
`count_ + delta` and puts the store into the buffer.  The two loads of `state_` leave the
buffer as it is.  The lock of a mutex (lines 144, 46, 69) and the atomic arithmetic on
`globalCount_` drain the buffer before they act. -/
def stepBuffered (t : Nat) (op : Op) (b : BufferedRace) : BufferedRace :=
  match b.race.thread with
  | ThreadPc.write =>
    { race := { b.race with
        thread := ThreadPc.secondRead ((cellOf b.race.counter t).count_ + op.delta) },
      buffer := some ((cellOf b.race.counter t).count_ + op.delta) }
  | ThreadPc.check _ => { race := stepThread t op (flushBuffer t b).race, buffer := none }
  | ThreadPc.lockMutex => { race := stepThread t op (flushBuffer t b).race, buffer := none }
  | ThreadPc.arithmetic => { race := stepThread t op (flushBuffer t b).race, buffer := none }
  | _ => { race := stepThread t op b.race, buffer := b.buffer }

/-- One turn of the race with the store buffer. -/
def turn (t : Nat) (op : Op) : Turn → BufferedRace → BufferedRace
  | Turn.thread, b => stepBuffered t op b
  | Turn.promoter, b => { race := stepPromoter b.race, buffer := b.buffer }
  | Turn.flush, b => flushBuffer t b

/-- An interleaving of the calling thread, the promoter and the flush of the store buffer. -/
def runTurns (t : Nat) (op : Op) : List Turn → BufferedRace → BufferedRace
  | [], b => b
  | x :: rest, b => runTurns t op rest (turn t op x b)

/-- The interleavings in which every store is in memory before the next step of any thread:
each step of the calling thread is followed at once by the flush of its buffer. -/
def visibleAtOnce : List Bool → List Turn
  | [] => []
  | true :: rest => Turn.thread :: Turn.flush :: visibleAtOnce rest
  | false :: rest => Turn.promoter :: visibleAtOnce rest

/-- Both threads run to their end after an interleaving, and the buffer is flushed: the
promoter first, then the calling thread. -/
def finishTurns (t : Nat) (op : Op) (b : BufferedRace) : BufferedRace :=
  runTurns t op
    (List.replicate (b.race.counter.localCount_.length + 4) Turn.promoter
      ++ visibleAtOnce (List.replicate 7 true)) b

/-- The end of the race of the call `op` by thread `t` with `useGlobal()` on the counter `s`
under the interleaving `turns`. -/
def bufferedRaceEnd (s : TLRefCount) (t : Nat) (op : Op) (turns : List Turn) : BufferedRace :=
  finishTurns t op (runTurns t op turns { race := Race.start s t, buffer := none })

/-- The interleaving in which the calling thread runs to its return with its store still in
the buffer, the promoter runs a whole `useGlobal()`, and the store reaches memory last. -/
def storeAfterFold : List Turn :=
  [Turn.thread, Turn.thread, Turn.thread, Turn.promoter, Turn.promoter, Turn.promoter,
    Turn.promoter, Turn.promoter, Turn.flush]

/-- The `collectDone_` flags of the registry, in its order. -/
def flags (r : List (Nat × LocalRefCount)) : List Bool :=
  r.map (fun e => e.2.collectDone_)

/-- Every cell of the registry is folded. -/
def AllFolded (r : List (Nat × LocalRefCount)) : Prop :=
  ∀ b ∈ flags r, b = true

/-- The cells at the first `i` positions of the registry are folded. -/
def FoldedUpTo (i : Nat) (r : List (Nat × LocalRefCount)) : Prop :=
  ∀ b ∈ (flags r).take i, b = true

/-- What the promoter has done so far: before it starts the phase is LOCAL and no cell is
folded; during the walk the phase is GLOBAL_TRANSITION and the cells it has passed are folded;
after the walk all cells are folded, and after line 94 the phase is GLOBAL. -/
def PromoterInv (c : Race) : Prop :=
  match c.promoter with
  | PromoterPc.enter => c.counter.state_ = State.LOCAL ∧ NoneFolded c.counter.localCount_
  | PromoterPc.walk i =>
    c.counter.state_ = State.GLOBAL_TRANSITION ∧ FoldedUpTo i c.counter.localCount_
  | PromoterPc.leave =>
    c.counter.state_ = State.GLOBAL_TRANSITION ∧ AllFolded c.counter.localCount_
  | PromoterPc.unlock => c.counter.state_ = State.GLOBAL ∧ AllFolded c.counter.localCount_
  | PromoterPc.finished => c.counter.state_ = State.GLOBAL ∧ AllFolded c.counter.localCount_

/-- What a call that left the fast path has done when it returns `r` with `globalCount_ = g`,
for a count of `q0` before the race: a decrement is applied; an increment is applied unless
the count is 0, and then it returns 0. -/
def GlobalOutcome (op : Op) (q0 r g : Int) : Prop :=
  match op with
  | Op.dec => g = q0 - 1 ∧ r = q0 - 1
  | Op.inc => (q0 ≠ 0 ∧ g = q0 + 1 ∧ r = q0 + 1) ∨ (q0 = 0 ∧ g = 0 ∧ r = 0)

/-- The update is missed by the fold: the cell is folded with a captured value other than
`n`, the value of `count_` after the write. -/
def Missed (c : LocalRefCount) (n : Int) : Prop :=
  c.collectDone_ = true ∧ c.collectCount_ ≠ n

/-- What the calling thread `t` has contributed so far, with `q0` the value of `Q` before the
race: nothing before its write; after its write `delta`, unless the fold has missed it;
nothing while it is on the global path; and its result once it has returned. -/
def ThreadInv (t : Nat) (op : Op) (q0 : Int) (c : Race) : Prop :=
  match c.thread with
  | ThreadPc.firstRead =>
    c.counter.Q = q0 ∧ ((cellOf c.counter t).collectDone_ = true →
      (cellOf c.counter t).collectCount_ = (cellOf c.counter t).count_)
  | ThreadPc.write =>
    c.counter.Q = q0 ∧ ((cellOf c.counter t).collectDone_ = true →
      (cellOf c.counter t).collectCount_ = (cellOf c.counter t).count_)
  | ThreadPc.secondRead n =>
    (cellOf c.counter t).count_ = n ∧ (Missed (cellOf c.counter t) n → c.counter.Q = q0) ∧
      (¬ Missed (cellOf c.counter t) n → c.counter.Q = q0 + op.delta)
  | ThreadPc.check n =>
    (cellOf c.counter t).count_ = n ∧ (Missed (cellOf c.counter t) n → c.counter.Q = q0) ∧
      (¬ Missed (cellOf c.counter t) n → c.counter.Q = q0 + op.delta)
  | ThreadPc.globalPath => c.counter.Q = q0 ∧ c.counter.state_ ≠ State.LOCAL
  | ThreadPc.lockMutex => c.counter.Q = q0 ∧ c.counter.state_ ≠ State.LOCAL
  | ThreadPc.arithmetic => c.counter.Q = q0 ∧ c.counter.state_ = State.GLOBAL
  | ThreadPc.returned true r =>
    r = 42 ∧ c.counter.Q = q0 + op.delta ∧ ((cellOf c.counter t).collectDone_ = true →
      (cellOf c.counter t).collectCount_ = (cellOf c.counter t).count_)
  | ThreadPc.returned false r =>
    c.counter.state_ = State.GLOBAL ∧ GlobalOutcome op q0 r c.counter.globalCount_
  | ThreadPc.assertFailed => False

/-- The invariant of the race: the cell of the caller is registered, and the promoter and the
caller are where `PromoterInv` and `ThreadInv` say. -/
def RaceInv (t : Nat) (op : Op) (q0 : Int) (c : Race) : Prop :=
  (∃ cell, findCell c.counter.localCount_ t = some cell) ∧ PromoterInv c ∧ ThreadInv t op q0 c

/-- Steps the promoter still needs at most. -/
def promoterFuel (c : Race) : Nat :=
  match c.promoter with
  | PromoterPc.enter => c.counter.localCount_.length + 4
  | PromoterPc.walk i => (c.counter.localCount_.length - i) + 3
  | PromoterPc.leave => 2
  | PromoterPc.unlock => 1
  | PromoterPc.finished => 0

/-- Steps the calling thread still needs at most. -/
def threadFuel (c : Race) : Nat :=
  match c.thread with
  | ThreadPc.firstRead => 7
  | ThreadPc.write => 6
  | ThreadPc.secondRead _ => 5
  | ThreadPc.check _ => 4
  | ThreadPc.globalPath => 3
  | ThreadPc.lockMutex => 2
  | ThreadPc.arithmetic => 1
  | ThreadPc.returned _ _ => 0
  | ThreadPc.assertFailed => 0

/-! ## The stack trace callback of `SingletonStackTrace.cpp` -/

/-- The constant `kMaxStackTraceDepth` of `stackTraceGetter`, line 25. -/
def kMaxStackTraceDepth : Nat := 100

/-- The constant `kDefaultCapacity` of `stackTraceGetter`, line 31. -/
def kDefaultCapacity : Nat := 500

/-- Modelled from the spec: `symbolizer::FrameArray<N>`, whose declaration is not among the
sources: a buffer with room for `N` return addresses and their symbolized names ("bounded by
a fixed maximum frame depth"), of which `frameCount` are in use. -/
structure FrameArray (N : Nat) where
  frameCount : Fin (N + 1)
  addresses : Fin N → Nat
  names : Fin N → String

/-- A frame array as declared at line 26, before any capture. -/
def FrameArray.empty (N : Nat) : FrameArray N :=
  { frameCount := 0, addresses := fun _ => 0, names := fun _ => "" }

/-- The calls `stackTraceGetter` makes into the symbolizer. -/
inductive SymbolizerCall where
  | symbolize (cacheCapacity : Nat)
  | println
deriving DecidableEq

/-- The function `stackTraceGetter`, lines 23-41.  `getStackTraceSafe`, `Symbolizer::symbolize`
and `StringSymbolizePrinter::println` followed by `str` are defined outside the sources and are
parameters.  The result is the string returned and the calls made into the symbolizer. -/
def stackTraceGetter
    (getStackTraceSafe : FrameArray kMaxStackTraceDepth → Bool × FrameArray kMaxStackTraceDepth)
    (symbolize : Nat → FrameArray kMaxStackTraceDepth → FrameArray kMaxStackTraceDepth)
    (println : FrameArray kMaxStackTraceDepth → String) : String × List SymbolizerCall :=
  let addresses := getStackTraceSafe (FrameArray.empty kMaxStackTraceDepth)
  if !addresses.1 then
    ("", [])
  else
    (println (symbolize kDefaultCapacity addresses.2),
      [SymbolizerCall.symbolize kDefaultCapacity, SymbolizerCall.println])

/-- The frames captured by a call of `stackTraceGetter`: `frameCount` of `addresses` after
`getStackTraceSafe`. -/
def capturedFrames
    (getStackTraceSafe : FrameArray kMaxStackTraceDepth → Bool × FrameArray kMaxStackTraceDepth) :
    Nat :=
  (getStackTraceSafe (FrameArray.empty kMaxStackTraceDepth)).2.frameCount.val

/-! ## The registry -/

theorem findCell_storeCell_same (r : List (Nat × LocalRefCount)) (t : Nat) (c : LocalRefCount) :
    findCell (storeCell r t c) t = some c := by
  induction r with
  | nil => simp [storeCell, findCell]
  | cons e rest ih =>
    obtain ⟨u, d⟩ := e
    by_cases h : u = t
    · simp [storeCell, findCell, h]
    · simp [storeCell, findCell, h, ih]

theorem findCell_storeCell_other (r : List (Nat × LocalRefCount)) (t u : Nat) (c : LocalRefCount)
    (hu : u ≠ t) : findCell (storeCell r t c) u = findCell r u := by
  induction r with
  | nil =>
    have : ¬ t = u := fun h => hu h.symm
    simp [storeCell, findCell, this]
  | cons e rest ih =>
    obtain ⟨v, d⟩ := e
    by_cases h : v = t
    · have : ¬ t = u := fun h => hu h.symm
      have hv : ¬ v = u := by rw [h]; exact this
      simp [storeCell, findCell, h, this]
    · by_cases h2 : v = u
      · subst h2
        simp [storeCell, findCell, hu]
      · simp [storeCell, findCell, h, h2, ih]

theorem storeCell_of_findCell (r : List (Nat × LocalRefCount)) (t : Nat) (c : LocalRefCount)
    (h : findCell r t = some c) : storeCell r t c = r := by
  induction r with
  | nil => simp [findCell] at h
  | cons e rest ih =>
    obtain ⟨u, d⟩ := e
    by_cases hut : u = t
    · simp [findCell, hut] at h
      simp [storeCell, hut, h]
    · simp [findCell, hut] at h
      simp [storeCell, hut, ih h]

theorem storeCell_storeCell (r : List (Nat × LocalRefCount)) (t : Nat) (c d : LocalRefCount) :
    storeCell (storeCell r t c) t d = storeCell r t d := by
  induction r with
  | nil => simp [storeCell]
  | cons e rest ih =>
    obtain ⟨u, x⟩ := e
    by_cases hut : u = t
    · simp [storeCell, hut]
    · simp [storeCell, hut, ih]

theorem mem_storeCell (r : List (Nat × LocalRefCount)) (t : Nat) (c : LocalRefCount)
    (e : Nat × LocalRefCount) (h : e ∈ storeCell r t c) : e ∈ r ∨ e = (t, c) := by
  induction r with
  | nil => simp [storeCell] at h; exact Or.inr h
  | cons x rest ih =>
    obtain ⟨u, d⟩ := x
    by_cases hut : u = t
    · simp [storeCell, hut] at h
      rcases h with h | h
      · exact Or.inr h
      · exact Or.inl (List.mem_cons_of_mem _ h)
    · simp [storeCell, hut] at h
      rcases h with h | h
      · exact Or.inl (by rw [h]; exact List.mem_cons_self _ _)
      · rcases ih h with h2 | h2
        · exact Or.inl (List.mem_cons_of_mem _ h2)
        · exact Or.inr h2

theorem mem_eraseCell (r : List (Nat × LocalRefCount)) (t : Nat)
    (e : Nat × LocalRefCount) (h : e ∈ eraseCell r t) : e ∈ r := by
  induction r with
  | nil => simp [eraseCell] at h
  | cons x rest ih =>
    obtain ⟨u, d⟩ := x
    by_cases hut : u = t
    · simp [eraseCell, hut] at h
      exact List.mem_cons_of_mem _ h
    · simp [eraseCell, hut] at h
      rcases h with h | h
      · rw [h]; exact List.mem_cons_self _ _
      · exact List.mem_cons_of_mem _ (ih h)

theorem mem_of_findCell (r : List (Nat × LocalRefCount)) (t : Nat) (c : LocalRefCount)
    (h : findCell r t = some c) : (t, c) ∈ r := by
  induction r with
  | nil => simp [findCell] at h
  | cons x rest ih =>
    obtain ⟨u, d⟩ := x
    by_cases hut : u = t
    · simp [findCell, hut] at h
      simp [hut, h]
    · simp [findCell, hut] at h
      exact List.mem_cons_of_mem _ (ih h)

theorem unfoldedSum_storeCell (r : List (Nat × LocalRefCount)) (t : Nat) (c : LocalRefCount) :
    unfoldedSum (storeCell r t c)
      = unfoldedSum r - (match findCell r t with | some d => pending d | none => 0) + pending c := by
  induction r with
  | nil => simp [storeCell, findCell, unfoldedSum, pending]
  | cons e rest ih =>
    obtain ⟨u, d⟩ := e
    by_cases hut : u = t
    · simp [storeCell, findCell, unfoldedSum, pending, hut]
      ring
    · simp [storeCell, findCell, unfoldedSum, hut, ih]
      ring

theorem unfoldedSum_eraseCell (r : List (Nat × LocalRefCount)) (t : Nat) :
    unfoldedSum (eraseCell r t)
      = unfoldedSum r - (match findCell r t with | some d => pending d | none => 0) := by
  induction r with
  | nil => simp [eraseCell, findCell, unfoldedSum]
  | cons e rest ih =>
    obtain ⟨u, d⟩ := e
    by_cases hut : u = t
    · simp [eraseCell, findCell, unfoldedSum, pending, hut]
    · simp [eraseCell, findCell, unfoldedSum, hut, ih]
      ring

theorem collectAll_total (r : List (Nat × LocalRefCount)) (g : Int) :
    (collectAll r g).2 = g + unfoldedSum r := by
  induction r generalizing g with
  | nil => simp [collectAll, unfoldedSum]
  | cons e rest ih =>
    obtain ⟨u, d⟩ := e
    cases hd : d.collectDone_ <;>
      simp [collectAll, unfoldedSum, LocalRefCount.collect, hd, ih]
    ring

theorem collectAll_done (r : List (Nat × LocalRefCount)) (g : Int)
    (e : Nat × LocalRefCount) (h : e ∈ (collectAll r g).1) : e.2.collectDone_ = true := by
  induction r generalizing g with
  | nil => simp [collectAll] at h
  | cons x rest ih =>
    obtain ⟨u, d⟩ := x
    simp only [collectAll, List.mem_cons] at h
    rcases h with h | h
    · rw [h]
      cases hd : d.collectDone_ <;> simp [LocalRefCount.collect, hd]
    · exact ih _ h

/-! ## Whole calls -/

theorem access_eq (s : TLRefCount) (t : Nat) :
    s.access t = (cellOf s t, { s with localCount_ := storeCell s.localCount_ t (cellOf s t) }) := by
  unfold TLRefCount.access cellOf
  cases h : findCell s.localCount_ t with
  | none => simp
  | some c => simp [storeCell_of_findCell _ _ _ h]

theorem bump_eq (s : TLRefCount) (t : Nat) (delta : Int) :
    s.bump t delta = (((cellOf s t).update s.state_ s.state_ delta).1,
      { s with localCount_ :=
          storeCell s.localCount_ t ((cellOf s t).update s.state_ s.state_ delta).2 }) := by
  simp [TLRefCount.bump, access_eq, storeCell_storeCell]

/-- On the local fast path the call adds `delta` to the caller's `count_` and reports success. -/
theorem bump_local (s : TLRefCount) (t : Nat) (delta : Int) (h : s.state_ = State.LOCAL) :
    s.bump t delta = (true,
      { s with localCount_ :=
          storeCell s.localCount_ t { cellOf s t with count_ := (cellOf s t).count_ + delta } }) := by
  rw [bump_eq]
  simp [LocalRefCount.update, h]

/-- Outside the local phase `update` returns at its first check; the cell is only accessed. -/
theorem bump_not_local (s : TLRefCount) (t : Nat) (delta : Int) (h : s.state_ ≠ State.LOCAL) :
    s.bump t delta = (false,
      { s with localCount_ := storeCell s.localCount_ t (cellOf s t) }) := by
  rw [bump_eq]
  simp [LocalRefCount.update, h]

theorem increment_local (s : TLRefCount) (t : Nat) (h : s.state_ = State.LOCAL) :
    s.increment t = some (42,
      { s with localCount_ :=
          storeCell s.localCount_ t { cellOf s t with count_ := (cellOf s t).count_ + 1 } }) := by
  simp [TLRefCount.increment, bump_local s t 1 h]

theorem decrement_local (s : TLRefCount) (t : Nat) (h : s.state_ = State.LOCAL) :
    s.decrement t = some (42,
      { s with localCount_ :=
          storeCell s.localCount_ t { cellOf s t with count_ := (cellOf s t).count_ + -1 } }) := by
  simp [TLRefCount.decrement, bump_local s t (-1) h]

theorem increment_not_local (s : TLRefCount) (t : Nat) (h : s.state_ ≠ State.LOCAL) :
    s.increment t = TLRefCount.incrementGlobal (s.access t).2 := by
  simp [TLRefCount.increment, bump_not_local s t 1 h, access_eq]

theorem decrement_not_local (s : TLRefCount) (t : Nat) (h : s.state_ ≠ State.LOCAL) :
    s.decrement t = TLRefCount.decrementGlobal (s.access t).2 := by
  simp [TLRefCount.decrement, bump_not_local s t (-1) h, access_eq]

theorem access_state (s : TLRefCount) (t : Nat) : (s.access t).2.state_ = s.state_ := by
  simp [access_eq]

theorem access_globalCount (s : TLRefCount) (t : Nat) :
    (s.access t).2.globalCount_ = s.globalCount_ := by
  simp [access_eq]

theorem cellOf_not_done (s : TLRefCount) (t : Nat) (hn : NoneFolded s.localCount_) :
    (cellOf s t).collectDone_ = false := by
  unfold cellOf
  cases h : findCell s.localCount_ t with
  | none => simp [LocalRefCount.new]
  | some c => simpa using hn _ (mem_of_findCell _ _ _ h)

theorem pending_cellOf (s : TLRefCount) (t : Nat) :
    (match findCell s.localCount_ t with | some d => pending d | none => 0) = pending (cellOf s t) := by
  unfold cellOf
  cases h : findCell s.localCount_ t with
  | none => simp [LocalRefCount.new, pending]
  | some c => simp

/-- Storing the caller's cell with `count_` moved by `delta` moves the pending sum by `delta`
when the cell is not folded. -/
theorem unfoldedSum_local (s : TLRefCount) (t : Nat) (delta : Int)
    (hc : (cellOf s t).collectDone_ = false) :
    unfoldedSum (storeCell s.localCount_ t
        { cellOf s t with count_ := (cellOf s t).count_ + delta })
      = unfoldedSum s.localCount_ + delta := by
  rw [unfoldedSum_storeCell, pending_cellOf]
  simp [pending, hc]
  ring

theorem noneFolded_store (r : List (Nat × LocalRefCount)) (t : Nat) (c : LocalRefCount)
    (hn : NoneFolded r) (hc : c.collectDone_ = false) : NoneFolded (storeCell r t c) := by
  intro e he
  rcases mem_storeCell _ _ _ _ he with h | h
  · exact hn e h
  · rw [h]; exact hc

/-- One call in the local phase with no folded cell: it returns 42, stays in that situation,
leaves `globalCount_` alone and moves `Q` by one in the direction of the call. -/
theorem step_local (s : TLRefCount) (e : Nat × Op) (h : s.state_ = State.LOCAL)
    (hn : NoneFolded s.localCount_) :
    ∃ s', step s e = some (42, s') ∧ s'.state_ = State.LOCAL ∧ NoneFolded s'.localCount_ ∧
      s'.globalCount_ = s.globalCount_ ∧
      s'.Q = s.Q + countOp Op.inc [e] - countOp Op.dec [e] := by
  obtain ⟨t, o⟩ := e
  have hc := cellOf_not_done s t hn
  cases o with
  | inc =>
    refine ⟨_, increment_local s t h, h, ?_, rfl, ?_⟩
    · exact noneFolded_store _ _ _ hn hc
    · simp only [TLRefCount.Q, unfoldedSum_local s t 1 hc]
      simp [countOp]
      ring
  | dec =>
    refine ⟨_, decrement_local s t h, h, ?_, rfl, ?_⟩
    · exact noneFolded_store _ _ _ hn hc
    · simp only [TLRefCount.Q, unfoldedSum_local s t (-1) hc]
      simp [countOp]
      ring

theorem countOp_cons (o : Op) (e : Nat × Op) (es : List (Nat × Op)) :
    countOp o (e :: es) = countOp o [e] + countOp o es := by
  unfold countOp
  by_cases h : e.2 = o
  · simp [List.filter_cons, h]
    ring
  · simp [List.filter_cons, h]

theorem countOp_append (o : Op) (es fs : List (Nat × Op)) :
    countOp o (es ++ fs) = countOp o es + countOp o fs := by
  simp [countOp, List.filter_append]

theorem countOp_replicate (o o' : Op) (t n : Nat) :
    countOp o (List.replicate n (t, o')) = if o' = o then (n : Int) else 0 := by
  induction n with
  | zero => simp [countOp]
  | succ n ih =>
    rw [List.replicate_succ, countOp_cons, ih]
    by_cases h : o' = o
    · simp [countOp, h]
      ring
    · simp [countOp, h]

theorem run_local (es : List (Nat × Op)) (s : TLRefCount) (h : s.state_ = State.LOCAL)
    (hn : NoneFolded s.localCount_) :
    ∃ s', run es s = some s' ∧ s'.state_ = State.LOCAL ∧ NoneFolded s'.localCount_ ∧
      s'.globalCount_ = s.globalCount_ ∧
      s'.Q = s.Q + countOp Op.inc es - countOp Op.dec es := by
  induction es generalizing s with
  | nil => exact ⟨s, rfl, h, hn, rfl, by simp [countOp]⟩
  | cons e es ih =>
    obtain ⟨s1, h1, hl1, hn1, hg1, hq1⟩ := step_local s e h hn
    obtain ⟨s2, h2, hl2, hn2, hg2, hq2⟩ := ih s1 hl1 hn1
    refine ⟨s2, by simp [run, h1, h2], hl2, hn2, by rw [hg2, hg1], ?_⟩
    rw [hq2, hq1, countOp_cons Op.inc e es, countOp_cons Op.dec e es]
    ring

theorem access_Q (s : TLRefCount) (t : Nat) : (s.access t).2.Q = s.Q := by
  simp [access_eq, TLRefCount.Q, unfoldedSum_storeCell, pending_cellOf]

/-- The global path of an increment by cases on the value found. -/
theorem increment_global (s : TLRefCount) (t : Nat) (h : s.state_ = State.GLOBAL) :
    s.increment t =
      if s.globalCount_ = 0 then some (0, (s.access t).2)
      else some (s.globalCount_ + 1,
        { (s.access t).2 with globalCount_ := s.globalCount_ + 1 }) := by
  have hl : s.state_ ≠ State.LOCAL := by rw [h]; decide
  rw [increment_not_local s t hl]
  simp [TLRefCount.incrementGlobal, access_state, access_globalCount, h]

/-- The global path of a decrement. -/
theorem decrement_global (s : TLRefCount) (t : Nat) (h : s.state_ = State.GLOBAL) :
    s.decrement t = some (s.globalCount_ - 1,
        { (s.access t).2 with globalCount_ := s.globalCount_ - 1 }) := by
  have hl : s.state_ ≠ State.LOCAL := by rw [h]; decide
  rw [decrement_not_local s t hl]
  simp [TLRefCount.decrementGlobal, access_state, access_globalCount, h]

theorem unfoldedSum_of_done (r : List (Nat × LocalRefCount))
    (h : ∀ e ∈ r, e.2.collectDone_ = true) : unfoldedSum r = 0 := by
  induction r with
  | nil => rfl
  | cons e rest ih =>
    obtain ⟨u, d⟩ := e
    have hd : d.collectDone_ = true := h (u, d) (List.mem_cons_self _ _)
    have hr := ih (fun e he => h e (List.mem_cons_of_mem _ he))
    simp [unfoldedSum, hd, hr]

theorem collect_snd (c : LocalRefCount) (g : Int) : (c.collect g).2 = g + pending c := by
  cases hd : c.collectDone_ <;> simp [LocalRefCount.collect, pending, hd]

theorem collect_pending (c : LocalRefCount) (g : Int) : pending (c.collect g).1 = 0 := by
  cases hd : c.collectDone_ <;> simp [LocalRefCount.collect, pending, hd]

theorem useGlobal_Q (s : TLRefCount) : s.useGlobal.Q = s.Q := by
  simp [TLRefCount.useGlobal, TLRefCount.Q, collectAll_total,
    unfoldedSum_of_done _ (collectAll_done s.localCount_ s.globalCount_)]

theorem collectCell_Q (s : TLRefCount) (t : Nat) : (s.collectCell t).Q = s.Q := by
  unfold TLRefCount.collectCell
  cases h : findCell s.localCount_ t with
  | none => rfl
  | some c =>
    simp [TLRefCount.Q, unfoldedSum_storeCell, h, collect_snd, collect_pending]

theorem destroyLocal_Q (s : TLRefCount) (t : Nat) : (s.destroyLocal t).Q = s.Q := by
  unfold TLRefCount.destroyLocal
  cases h : findCell s.localCount_ t with
  | none => rfl
  | some c =>
    simp [TLRefCount.Q, unfoldedSum_eraseCell, h, collect_snd]

theorem increment_state (s s' : TLRefCount) (t : Nat) (r : Int)
    (h : s.increment t = some (r, s')) : s'.state_ = s.state_ := by
  cases hs : s.state_ with
  | LOCAL =>
    rw [increment_local s t hs] at h
    simp at h
    rw [← h.2]
    exact hs
  | GLOBAL =>
    rw [increment_global s t hs] at h
    by_cases hg : s.globalCount_ = 0
    · simp [hg] at h
      rw [← h.2, access_state]; exact hs
    · simp [hg] at h
      rw [← h.2]; simp [access_state, hs]
  | GLOBAL_TRANSITION =>
    have hl : s.state_ ≠ State.LOCAL := by rw [hs]; decide
    rw [increment_not_local s t hl] at h
    simp [TLRefCount.incrementGlobal, access_state, hs] at h

theorem decrement_state (s s' : TLRefCount) (t : Nat) (r : Int)
    (h : s.decrement t = some (r, s')) : s'.state_ = s.state_ := by
  cases hs : s.state_ with
  | LOCAL =>
    rw [decrement_local s t hs] at h
    simp at h
    rw [← h.2]
    exact hs
  | GLOBAL =>
    rw [decrement_global s t hs] at h
    simp at h
    rw [← h.2]; simp [access_state, hs]
  | GLOBAL_TRANSITION =>
    have hl : s.state_ ≠ State.LOCAL := by rw [hs]; decide
    rw [decrement_not_local s t hl] at h
    simp [TLRefCount.decrementGlobal, access_state, hs] at h

/-- Between whole calls the phase is never `GLOBAL_TRANSITION`, and while it is `LOCAL` no
registered cell is folded. -/
theorem reachable_inv (s : TLRefCount) (h : Reachable s) :
    s.state_ ≠ State.GLOBAL_TRANSITION ∧ (s.state_ = State.LOCAL → NoneFolded s.localCount_) := by
  induction h with
  | init =>
    refine ⟨by decide, fun _ e he => ?_⟩
    simp [TLRefCount.new] at he
  | @increment s s' t r _ hi ih =>
    have hst := increment_state s s' t r hi
    refine ⟨by rw [hst]; exact ih.1, fun hl => ?_⟩
    have hl0 : s.state_ = State.LOCAL := by rw [← hst]; exact hl
    obtain ⟨s1, h1, _, hn1, _, _⟩ := step_local s (t, Op.inc) hl0 (ih.2 hl0)
    have : s.increment t = some (42, s1) := h1
    rw [hi] at this
    simp at this
    rw [this.2]; exact hn1
  | @decrement s s' t r _ hi ih =>
    have hst := decrement_state s s' t r hi
    refine ⟨by rw [hst]; exact ih.1, fun hl => ?_⟩
    have hl0 : s.state_ = State.LOCAL := by rw [← hst]; exact hl
    obtain ⟨s1, h1, _, hn1, _, _⟩ := step_local s (t, Op.dec) hl0 (ih.2 hl0)
    have : s.decrement t = some (42, s1) := h1
    rw [hi] at this
    simp at this
    rw [this.2]; exact hn1
  | @useGlobal s _ ih =>
    exact ⟨by simp [TLRefCount.useGlobal], fun hl => by simp [TLRefCount.useGlobal] at hl⟩
  | @destroyLocal s t _ ih =>
    unfold TLRefCount.destroyLocal
    cases hf : findCell s.localCount_ t with
    | none => exact ih
    | some c =>
      refine ⟨ih.1, fun hl e he => ?_⟩
      exact ih.2 hl e (mem_eraseCell _ _ _ he)

theorem access_unfoldedSum (s : TLRefCount) (t : Nat) :
    unfoldedSum (s.access t).2.localCount_ = unfoldedSum s.localCount_ := by
  simp [access_eq, unfoldedSum_storeCell, pending_cellOf]

/-- Effect of an increment on `Q` between whole calls: a call that returns a nonzero value
raises `Q` by one, a call that returns 0 leaves it alone unless `globalCount_` was -1. -/
theorem increment_Q (s : TLRefCount) (t : Nat) (hs : Reachable s) :
    ∃ r s', s.increment t = some (r, s') ∧ (r ≠ 0 → s'.Q = s.Q + 1) ∧
      (r = 0 → s.globalCount_ ≠ -1 → s'.Q = s.Q) := by
  obtain ⟨hne, hloc⟩ := reachable_inv s hs
  cases hst : s.state_ with
  | GLOBAL_TRANSITION => exact absurd hst hne
  | LOCAL =>
    obtain ⟨s1, h1, _, _, _, hq⟩ := step_local s (t, Op.inc) hst (hloc hst)
    refine ⟨42, s1, h1, fun _ => ?_, fun h0 => absurd h0 (by decide)⟩
    rw [hq]
    simp [countOp]
  | GLOBAL =>
    rw [increment_global s t hst]
    by_cases hg : s.globalCount_ = 0
    · refine ⟨0, (s.access t).2, by simp [hg], fun h => absurd rfl h, fun _ _ => access_Q s t⟩
    · refine ⟨s.globalCount_ + 1, { (s.access t).2 with globalCount_ := s.globalCount_ + 1 },
        by simp [hg], fun _ => ?_, fun h0 hm => ?_⟩
      · simp only [TLRefCount.Q, access_unfoldedSum]
        ring
      · exact absurd (by omega) hm

/-- Effect of a decrement on `Q` between whole calls. -/
theorem decrement_Q (s : TLRefCount) (t : Nat) (hs : Reachable s) :
    ∃ r s', s.decrement t = some (r, s') ∧ s'.Q = s.Q - 1 := by
  obtain ⟨hne, hloc⟩ := reachable_inv s hs
  cases hst : s.state_ with
  | GLOBAL_TRANSITION => exact absurd hst hne
  | LOCAL =>
    obtain ⟨s1, h1, _, _, _, hq⟩ := step_local s (t, Op.dec) hst (hloc hst)
    refine ⟨42, s1, h1, ?_⟩
    rw [hq]
    simp [countOp]
  | GLOBAL =>
    rw [decrement_global s t hst]
    refine ⟨_, _, rfl, ?_⟩
    simp only [TLRefCount.Q, access_unfoldedSum]
    ring

theorem useGlobal_state (s : TLRefCount) : s.useGlobal.state_ = State.GLOBAL := rfl

theorem useGlobal_globalCount (s : TLRefCount) : s.useGlobal.globalCount_ = s.Q := by
  simp [TLRefCount.useGlobal, TLRefCount.Q, collectAll_total]

theorem load_global (s : TLRefCount) (h : s.state_ = State.GLOBAL) :
    s.load = (s.globalCount_, s) := by
  simp [TLRefCount.load, h]

theorem access_cellsKept (s : TLRefCount) (t : Nat) : CellsKept s (s.access t).2 t := by
  rw [access_eq]
  refine ⟨fun u c h => ?_, fun u c h => ?_⟩
  · by_cases hu : u = t
    · subst hu
      simp [findCell_storeCell_same, cellOf, h]
    · simp [findCell_storeCell_other _ _ _ _ hu, h]
  · by_cases hu : u = t
    · subst hu
      simp only [findCell_storeCell_same, Option.some.injEq] at h
      cases hf : findCell s.localCount_ u with
      | none =>
        right
        refine ⟨rfl, ?_⟩
        rw [← h]
        simp [cellOf, hf]
      | some d =>
        left
        rw [← h]
        simp [cellOf, hf]
    · left
      simpa [findCell_storeCell_other _ _ _ _ hu] using h

/-- In the global phase at a count of zero an increment returns 0 and only accesses the
caller's cell. -/
theorem increment_zero (s : TLRefCount) (t : Nat) (hp : s.state_ = State.GLOBAL)
    (hz : s.globalCount_ = 0) : s.increment t = some (0, (s.access t).2) := by
  rw [increment_global s t hp]
  simp [hz]

/-- A sequence of increments only, started in the global phase at zero: every call returns 0
and leaves the phase and the zero count. -/
theorem increments_at_zero (es : List (Nat × Op)) (s : TLRefCount)
    (hp : s.state_ = State.GLOBAL) (hz : s.globalCount_ = 0) (hall : ∀ e ∈ es, e.2 = Op.inc) :
    ∃ tr, runTrace es s = some tr ∧ tr.length = es.length ∧
      ∀ x ∈ tr, x.1 = 0 ∧ x.2.state_ = State.GLOBAL ∧ x.2.globalCount_ = 0 := by
  induction es generalizing s with
  | nil => exact ⟨[], rfl, rfl, fun x hx => by simp at hx⟩
  | cons e es ih =>
    obtain ⟨t, o⟩ := e
    have ho : o = Op.inc := hall (t, o) (List.mem_cons_self _ _)
    subst ho
    have h1 : step s (t, Op.inc) = some (0, (s.access t).2) := increment_zero s t hp hz
    have hp1 : (s.access t).2.state_ = State.GLOBAL := by rw [access_state]; exact hp
    have hz1 : (s.access t).2.globalCount_ = 0 := by rw [access_globalCount]; exact hz
    obtain ⟨tr, h2, hlen, htr⟩ :=
      ih (s.access t).2 hp1 hz1 (fun e he => hall e (List.mem_cons_of_mem _ he))
    refine ⟨(0, (s.access t).2) :: tr, by simp [runTrace, h1, h2], by simp [hlen], ?_⟩
    intro x hx
    rcases List.mem_cons.mp hx with hx | hx
    · rw [hx]; exact ⟨rfl, hp1, hz1⟩
    · exact htr x hx

/-- One call in the global phase at a count that is not positive: the call returns and the
count is still not positive. -/
theorem step_nonpos (s : TLRefCount) (e : Nat × Op) (hp : s.state_ = State.GLOBAL)
    (hz : s.globalCount_ ≤ 0) :
    ∃ r s', step s e = some (r, s') ∧ s'.state_ = State.GLOBAL ∧ s'.globalCount_ ≤ 0 := by
  obtain ⟨t, o⟩ := e
  have hp1 : (s.access t).2.state_ = State.GLOBAL := by rw [access_state]; exact hp
  cases o with
  | inc =>
    show ∃ r s', s.increment t = some (r, s') ∧ _
    rw [increment_global s t hp]
    by_cases hg : s.globalCount_ = 0
    · exact ⟨0, (s.access t).2, by simp [hg], hp1, by rw [access_globalCount]; exact hz⟩
    · refine ⟨s.globalCount_ + 1, { (s.access t).2 with globalCount_ := s.globalCount_ + 1 },
        by simp [hg], hp1, ?_⟩
      show s.globalCount_ + 1 ≤ 0
      omega
  | dec =>
    show ∃ r s', s.decrement t = some (r, s') ∧ _
    rw [decrement_global s t hp]
    refine ⟨_, _, rfl, hp1, ?_⟩
    show s.globalCount_ - 1 ≤ 0
    omega

theorem runTrace_nonpos (es : List (Nat × Op)) (s : TLRefCount)
    (hp : s.state_ = State.GLOBAL) (hz : s.globalCount_ ≤ 0) :
    ∃ tr, runTrace es s = some tr ∧ tr.length = es.length ∧
      ∀ x ∈ tr, x.2.state_ = State.GLOBAL ∧ x.2.globalCount_ ≤ 0 := by
  induction es generalizing s with
  | nil => exact ⟨[], rfl, rfl, fun x hx => by simp at hx⟩
  | cons e es ih =>
    obtain ⟨r, s1, h1, hp1, hz1⟩ := step_nonpos s e hp hz
    obtain ⟨tr, h2, hlen, htr⟩ := ih s1 hp1 hz1
    refine ⟨(r, s1) :: tr, by simp [runTrace, h1, h2], by simp [hlen], ?_⟩
    intro x hx
    rcases List.mem_cons.mp hx with hx | hx
    · rw [hx]; exact ⟨hp1, hz1⟩
    · exact htr x hx

/-- C1 (conservation).  Every finite sequence of increments and decrements by any threads on
a fresh counter runs entirely on the local path; a single `useGlobal()` afterwards leaves the
phase GLOBAL and `globalCount_`, which is then what `operator*` returns, equal to
1 + (number of increments) - (number of decrements).  One thread with 3 increments and
1 decrement gives 3, and so do two threads with 1000 increments and 999 decrements each. -/
theorem conservation :
    (∀ es : List (Nat × Op), ∃ s, run es TLRefCount.new = some s ∧ s.state_ = State.LOCAL ∧
      s.useGlobal.state_ = State.GLOBAL ∧
      s.useGlobal.globalCount_ = 1 + countOp Op.inc es - countOp Op.dec es ∧
      s.useGlobal.load.1 = 1 + countOp Op.inc es - countOp Op.dec es) ∧
    (run [(0, Op.inc), (0, Op.inc), (0, Op.inc), (0, Op.dec)] TLRefCount.new).map
      (fun s => s.useGlobal.load.1) = some 3 ∧
    (run scenarioB TLRefCount.new).map (fun s => s.useGlobal.load.1) = some 3 := by
  have key : ∀ es : List (Nat × Op), ∃ s, run es TLRefCount.new = some s ∧
      s.state_ = State.LOCAL ∧ s.useGlobal.state_ = State.GLOBAL ∧
      s.useGlobal.globalCount_ = 1 + countOp Op.inc es - countOp Op.dec es ∧
      s.useGlobal.load.1 = 1 + countOp Op.inc es - countOp Op.dec es := by
    intro es
    obtain ⟨s, hr, hl, _, _, hq⟩ :=
      run_local es TLRefCount.new rfl (by intro e he; simp [TLRefCount.new] at he)
    have hq' : s.Q = 1 + countOp Op.inc es - countOp Op.dec es := by
      rw [hq]; simp [TLRefCount.Q, TLRefCount.new, unfoldedSum]
    refine ⟨s, hr, hl, rfl, ?_, ?_⟩
    · rw [useGlobal_globalCount, hq']
    · rw [load_global _ (useGlobal_state s)]
      simp only
      rw [useGlobal_globalCount, hq']
  refine ⟨key, by decide, ?_⟩
  obtain ⟨s, hr, _, _, _, hv⟩ := key scenarioB
  have hi : countOp Op.inc scenarioB = 2000 := by
    unfold scenarioB
    simp only [countOp_append, countOp_replicate]
    simp
  have hd : countOp Op.dec scenarioB = 1998 := by
    unfold scenarioB
    simp only [countOp_append, countOp_replicate]
    simp
  rw [hi, hd] at hv
  rw [hr, Option.map_some', hv]
  norm_num

/-- C2, as stated, fails: `belowZero` is reached from a fresh counter by whole calls, and there
an increment returns 0 although it has raised `Q` from -1 to 0. -/
theorem increment_zero_result_moves_Q :
    Reachable belowZero ∧
    ∃ s', belowZero.increment 0 = some (0, s') ∧ belowZero.Q = -1 ∧ s'.Q = 0 := by
  refine ⟨?_, ⟨atZero, by decide, by decide, by decide⟩⟩
  have h1 : Reachable TLRefCount.new.useGlobal := Reachable.useGlobal Reachable.init
  have h2 : Reachable atZero :=
    Reachable.decrement h1 (by decide : TLRefCount.new.useGlobal.decrement 0 = some (0, _))
  exact Reachable.decrement h2
    (by decide : TLRefCount.decrement atZero 0 = some (-1, _))

/-- C2 (invariant I1), amended.  `Q` is 1 on a fresh counter.  In every state reached from a
fresh counter by whole calls: an increment returns, raises `Q` by exactly 1 when it returns a
nonzero value, and leaves `Q` unchanged when it returns 0 and `globalCount_` was not -1; a
decrement returns and lowers `Q` by exactly 1; `collect()` on any cell, `useGlobal()` and the
teardown of a cell leave `Q` unchanged. -/
theorem Q_invariant (s : TLRefCount) (hs : Reachable s) (t : Nat) :
    TLRefCount.new.Q = 1 ∧
    (∃ r s', s.increment t = some (r, s') ∧ (r ≠ 0 → s'.Q = s.Q + 1) ∧
      (r = 0 → s.globalCount_ ≠ -1 → s'.Q = s.Q)) ∧
    (∃ r s', s.decrement t = some (r, s') ∧ s'.Q = s.Q - 1) ∧
    (s.collectCell t).Q = s.Q ∧ s.useGlobal.Q = s.Q ∧ (s.destroyLocal t).Q = s.Q :=
  ⟨by decide, increment_Q s t hs, decrement_Q s t hs, collectCell_Q s t, useGlobal_Q s,
    destroyLocal_Q s t⟩

/-- The invariant at the state after `useGlobal()` on a fresh counter, for thread 0. -/
theorem Q_invariant_witness :
    Reachable TLRefCount.new.useGlobal ∧
    (∃ r s', TLRefCount.new.useGlobal.decrement 0 = some (r, s') ∧
      s'.Q = TLRefCount.new.useGlobal.Q - 1) :=
  ⟨Reachable.useGlobal Reachable.init,
    (Q_invariant TLRefCount.new.useGlobal (Reachable.useGlobal Reachable.init) 0).2.2.1⟩

/-- C3 (non-resurrection by increment).  In the global phase with `globalCount_ = 0` an
increment returns 0 and leaves `globalCount_`, the phase and every cell unchanged; `operator*`
gives 0 before and after; any number of consecutive increments, by any threads, all return 0
and `operator*` stays 0. -/
theorem increment_never_resurrects (s : TLRefCount) (t : Nat) (hp : s.state_ = State.GLOBAL)
    (hz : s.globalCount_ = 0) :
    (∃ s', s.increment t = some (0, s') ∧ s'.globalCount_ = 0 ∧ s'.state_ = State.GLOBAL ∧
      CellsKept s s' t ∧ s'.load.1 = 0) ∧
    s.load.1 = 0 ∧
    ∀ ts : List Nat, ∃ tr, runTrace (ts.map (fun u => (u, Op.inc))) s = some tr ∧
      tr.length = ts.length ∧ ∀ x ∈ tr, x.1 = 0 ∧ x.2.load.1 = 0 := by
  have hp1 : (s.access t).2.state_ = State.GLOBAL := by rw [access_state]; exact hp
  have hz1 : (s.access t).2.globalCount_ = 0 := by rw [access_globalCount]; exact hz
  refine ⟨⟨(s.access t).2, increment_zero s t hp hz, hz1, hp1, access_cellsKept s t, ?_⟩, ?_, ?_⟩
  · rw [load_global _ hp1]; exact hz1
  · rw [load_global _ hp]; exact hz
  · intro ts
    obtain ⟨tr, h1, hlen, htr⟩ := increments_at_zero (ts.map (fun u => (u, Op.inc))) s hp hz
      (by intro e he; obtain ⟨_, _, hu⟩ := List.mem_map.mp he; rw [← hu])
    refine ⟨tr, h1, by simpa using hlen, fun x hx => ?_⟩
    obtain ⟨h0, hg, hc⟩ := htr x hx
    exact ⟨h0, by rw [load_global _ hg]; exact hc⟩

/-- Scenario C: on a fresh counter `useGlobal()` gives a load of 1, one decrement gives a load
of 0, then an increment returns 0 and the load is still 0. -/
theorem increment_never_resurrects_witness :
    TLRefCount.new.useGlobal.load.1 = 1 ∧
    TLRefCount.new.useGlobal.decrement 0 = some (0, atZero) ∧ atZero.load.1 = 0 ∧
    ∃ s', atZero.increment 0 = some (0, s') ∧ s'.globalCount_ = 0 ∧
      s'.state_ = State.GLOBAL ∧ CellsKept atZero s' 0 ∧ s'.load.1 = 0 :=
  ⟨by decide, by decide, by decide, (increment_never_resurrects atZero 0 rfl rfl).1⟩

/-- C4 (invariant I4).  From a state in the global phase with `globalCount_ = 0`, every finite
sequence of increments and decrements by any threads runs to its end, and `globalCount_` is at
most 0 after each of its calls, that is after every prefix of the sequence. -/
theorem never_positive_again (s : TLRefCount) (es : List (Nat × Op))
    (hp : s.state_ = State.GLOBAL) (hz : s.globalCount_ = 0) :
    ∃ tr, runTrace es s = some tr ∧ tr.length = es.length ∧ ∀ x ∈ tr, x.2.globalCount_ ≤ 0 := by
  obtain ⟨tr, h1, hlen, htr⟩ := runTrace_nonpos es s hp (le_of_eq hz)
  exact ⟨tr, h1, hlen, fun x hx => (htr x hx).2⟩

/-- I4 on the sequence decrement, increment, increment started at `atZero`. -/
theorem never_positive_again_witness :
    atZero.state_ = State.GLOBAL ∧ atZero.globalCount_ = 0 ∧
    ∃ tr, runTrace [(0, Op.dec), (1, Op.inc), (1, Op.inc)] atZero = some tr ∧
      tr.length = 3 ∧ ∀ x ∈ tr, x.2.globalCount_ ≤ 0 :=
  ⟨rfl, rfl, never_positive_again atZero [(0, Op.dec), (1, Op.inc), (1, Op.inc)] rfl rfl⟩

/-- C5, as stated, fails: from `atZero` (global phase, `globalCount_ = 0`) a decrement leaves
`globalCount_ = -1`, a second one -2, and the increment that follows returns -1, not 0. -/
theorem decrement_leaves_zero :
    atZero.state_ = State.GLOBAL ∧ atZero.globalCount_ = 0 ∧
    runTrace [(0, Op.dec), (0, Op.dec), (0, Op.inc)] atZero =
      some [(-1, belowZero), (-2, { belowZero with globalCount_ := -2 }), (-1, belowZero)] := by
  decide

/-- C5, amended.  Once `globalCount_` is zero in the global phase, every finite sequence of
further increments and decrements runs to its end with `globalCount_` at most 0 after every
call; when the sequence consists of increments only, `globalCount_` is exactly 0 after every
call and every call returns 0. -/
theorem zero_is_kept_by_increments (s : TLRefCount) (es : List (Nat × Op))
    (hp : s.state_ = State.GLOBAL) (hz : s.globalCount_ = 0) :
    ∃ tr, runTrace es s = some tr ∧ tr.length = es.length ∧
      (∀ x ∈ tr, x.2.globalCount_ ≤ 0) ∧
      ((∀ e ∈ es, e.2 = Op.inc) → ∀ x ∈ tr, x.1 = 0 ∧ x.2.globalCount_ = 0) := by
  obtain ⟨tr, h1, hlen, htr⟩ := runTrace_nonpos es s hp (le_of_eq hz)
  refine ⟨tr, h1, hlen, fun x hx => (htr x hx).2, fun hall x hx => ?_⟩
  obtain ⟨tr', h2, _, htr'⟩ := increments_at_zero es s hp hz hall
  have : tr' = tr := by rw [h1] at h2; exact (Option.some.inj h2).symm
  subst this
  exact ⟨(htr' x hx).1, (htr' x hx).2.2⟩

/-- The amended C5 on two increments by threads 1 and 2 started at `atZero`. -/
theorem zero_is_kept_by_increments_witness :
    atZero.state_ = State.GLOBAL ∧ atZero.globalCount_ = 0 ∧
    ∃ tr, runTrace [(1, Op.inc), (2, Op.inc)] atZero = some tr ∧ tr.length = 2 ∧
      (∀ x ∈ tr, x.2.globalCount_ ≤ 0) ∧
      ((∀ e ∈ [(1, Op.inc), (2, Op.inc)], e.2 = Op.inc) →
        ∀ x ∈ tr, x.1 = 0 ∧ x.2.globalCount_ = 0) :=
  ⟨rfl, rfl, zero_is_kept_by_increments atZero [(1, Op.inc), (2, Op.inc)] rfl rfl⟩

/-- C6 (increment on the global path).  In the global phase with `globalCount_ = v`, `v` not
zero, an increment sets `globalCount_` to `v + 1`, returns `v + 1`, keeps the phase and leaves
`count_`, `collectDone_` and `collectCount_` of every cell unchanged.  (`v + 1` is always
representable in the integer model of this development.) -/
theorem increment_global_path (s : TLRefCount) (t : Nat) (hp : s.state_ = State.GLOBAL)
    (hv : s.globalCount_ ≠ 0) :
    ∃ s', s.increment t = some (s.globalCount_ + 1, s') ∧
      s'.globalCount_ = s.globalCount_ + 1 ∧ s'.state_ = State.GLOBAL ∧ CellsKept s s' t := by
  refine ⟨{ (s.access t).2 with globalCount_ := s.globalCount_ + 1 }, ?_, rfl, ?_, ?_⟩
  · rw [increment_global s t hp]
    simp [hv]
  · show (s.access t).2.state_ = State.GLOBAL
    rw [access_state]; exact hp
  · exact access_cellsKept s t

/-- C6 right after `useGlobal()` on a fresh counter: the increment takes 1 to 2. -/
theorem increment_global_path_witness :
    TLRefCount.new.useGlobal.state_ = State.GLOBAL ∧ TLRefCount.new.useGlobal.globalCount_ ≠ 0 ∧
    ∃ s', TLRefCount.new.useGlobal.increment 0 = some (TLRefCount.new.useGlobal.globalCount_ + 1, s') ∧
      s'.globalCount_ = TLRefCount.new.useGlobal.globalCount_ + 1 ∧ s'.state_ = State.GLOBAL ∧
      CellsKept TLRefCount.new.useGlobal s' 0 :=
  ⟨rfl, by decide, increment_global_path TLRefCount.new.useGlobal 0 rfl (by decide)⟩

theorem wrapInt64_of_range (x : Int) (hlo : INT64_MIN ≤ x) (hhi : x ≤ INT64_MAX) :
    wrapInt64 x = x := by
  unfold wrapInt64
  unfold INT64_MIN at hlo
  unfold INT64_MAX at hhi
  omega

theorem decrement64_global (s : TLRefCount) (t : Nat) (h : s.state_ = State.GLOBAL) :
    s.decrement64 t = some (wrapInt64 (s.globalCount_ - 1),
        { (s.access t).2 with globalCount_ := wrapInt64 (s.globalCount_ - 1) }) := by
  have hl : s.state_ ≠ State.LOCAL := by rw [h]; decide
  simp [TLRefCount.decrement64, bump_not_local s t (-1) hl, TLRefCount.decrementGlobal64,
    access_eq, h]

/-- Where `globalCount_ - 1` is an `int64_t`, the decrement with the width of `globalCount_`
is the decrement over the integers. -/
theorem decrement64_eq_decrement (s : TLRefCount) (t : Nat)
    (hlo : INT64_MIN < s.globalCount_) (hhi : s.globalCount_ ≤ INT64_MAX) :
    s.decrement64 t = s.decrement t := by
  have hw : wrapInt64 (s.globalCount_ - 1) = s.globalCount_ - 1 :=
    wrapInt64_of_range _ (by omega) (by omega)
  have hg : (s.bump t (-1)).2.globalCount_ = s.globalCount_ := by
    rw [bump_eq]
  simp only [TLRefCount.decrement64, TLRefCount.decrement, TLRefCount.decrementGlobal64,
    TLRefCount.decrementGlobal, hg, hw]

/-- C7, as stated, fails at the least `int64_t`: in the global phase with
`globalCount_ = INT64_MIN` the decrement does not refuse, but `--globalCount_` wraps around:
it stores and returns `INT64_MAX`, not `INT64_MIN - 1`. -/
theorem decrement_wraps_at_int64_min :
    atInt64Min.state_ = State.GLOBAL ∧ atInt64Min.globalCount_ = INT64_MIN ∧
    atInt64Min.decrement64 0 = some (INT64_MAX,
      { state_ := State.GLOBAL, localCount_ := [(0, LocalRefCount.new)],
        globalCount_ := INT64_MAX }) ∧
    INT64_MAX ≠ atInt64Min.globalCount_ - 1 := by
  decide

/-- C7, amended.  In the global phase, for every `globalCount_ = v` of `int64_t`, whatever
its sign, a decrement does not refuse: it returns, stores the value it returns, keeps the
phase and leaves every cell unchanged.  For every `v` other than `INT64_MIN` the value is
`v - 1`, and it is 0 exactly when `v = 1`; for `v = INT64_MIN` it is `INT64_MAX`. -/
theorem decrement_global_path (s : TLRefCount) (t : Nat) (hp : s.state_ = State.GLOBAL)
    (hlo : INT64_MIN ≤ s.globalCount_) (hhi : s.globalCount_ ≤ INT64_MAX) :
    (∃ r s', s.decrement64 t = some (r, s') ∧ s'.globalCount_ = r ∧
      s'.state_ = State.GLOBAL ∧ CellsKept s s' t ∧
      (s.globalCount_ ≠ INT64_MIN → r = s.globalCount_ - 1) ∧
      (s.globalCount_ = INT64_MIN → r = INT64_MAX)) ∧
    (s.globalCount_ ≠ INT64_MIN →
      ∀ r s', s.decrement64 t = some (r, s') → (r = 0 ↔ s.globalCount_ = 1)) := by
  have hw : s.globalCount_ ≠ INT64_MIN → wrapInt64 (s.globalCount_ - 1) = s.globalCount_ - 1 :=
    fun hne => wrapInt64_of_range _ (by omega) (by omega)
  refine ⟨⟨wrapInt64 (s.globalCount_ - 1),
    { (s.access t).2 with globalCount_ := wrapInt64 (s.globalCount_ - 1) },
    decrement64_global s t hp, rfl, ?_, access_cellsKept s t, hw, fun hmin => ?_⟩,
    fun hne r s' h => ?_⟩
  · show (s.access t).2.state_ = State.GLOBAL
    rw [access_state]; exact hp
  · rw [hmin]
    decide
  · rw [decrement64_global s t hp, hw hne] at h
    have hr : s.globalCount_ - 1 = r := (Prod.mk.inj (Option.some.inj h)).1
    constructor <;> intro h0 <;> omega

/-- The amended C7 at `atZero` and at `belowZero`: the decrement goes below zero, from 0 to
-1 and from -1 to -2. -/
theorem decrement_global_path_witness :
    (atZero.state_ = State.GLOBAL ∧ INT64_MIN ≤ atZero.globalCount_ ∧
      atZero.globalCount_ ≤ INT64_MAX ∧
      ∃ r s', atZero.decrement64 0 = some (r, s') ∧ s'.globalCount_ = r ∧
        s'.state_ = State.GLOBAL ∧ CellsKept atZero s' 0 ∧
        (atZero.globalCount_ ≠ INT64_MIN → r = atZero.globalCount_ - 1) ∧
        (atZero.globalCount_ = INT64_MIN → r = INT64_MAX)) ∧
    (∃ r s', belowZero.decrement64 0 = some (r, s') ∧ s'.globalCount_ = r ∧
        s'.state_ = State.GLOBAL ∧ CellsKept belowZero s' 0 ∧
        (belowZero.globalCount_ ≠ INT64_MIN → r = belowZero.globalCount_ - 1) ∧
        (belowZero.globalCount_ = INT64_MIN → r = INT64_MAX)) :=
  ⟨⟨rfl, by decide, by decide,
      (decrement_global_path atZero 0 rfl (by decide) (by decide)).1⟩,
    (decrement_global_path belowZero 0 rfl (by decide) (by decide)).1⟩

theorem fastPathFrame_store (s : TLRefCount) (t : Nat) (delta : Int) :
    FastPathFrame s
      { s with localCount_ :=
          storeCell s.localCount_ t { cellOf s t with count_ := (cellOf s t).count_ + delta } }
      t delta :=
  ⟨rfl, rfl, fun _ hu => findCell_storeCell_other _ _ _ _ hu,
    _, findCell_storeCell_same _ _ _, rfl, rfl, rfl⟩

/-- C8 (local fast path frame).  In the local phase an increment by thread `t` returns through
the fast path and changes only `count_` of the cell of `t`, by exactly +1, and a decrement
changes only that `count_`, by exactly -1: `globalCount_`, the phase, the cell of every other
thread, and `collectDone_` and `collectCount_` of the cell of `t` are unchanged. -/
theorem local_fast_path (s : TLRefCount) (t : Nat) (hp : s.state_ = State.LOCAL) :
    (∃ s', s.increment t = some (42, s') ∧ FastPathFrame s s' t 1) ∧
    (∃ s', s.decrement t = some (42, s') ∧ FastPathFrame s s' t (-1)) :=
  ⟨⟨_, increment_local s t hp, fastPathFrame_store s t 1⟩,
    ⟨_, decrement_local s t hp, fastPathFrame_store s t (-1)⟩⟩

/-- C8 on a fresh counter, thread 7. -/
theorem local_fast_path_witness :
    TLRefCount.new.state_ = State.LOCAL ∧
    (∃ s', TLRefCount.new.increment 7 = some (42, s') ∧ FastPathFrame TLRefCount.new s' 7 1) ∧
    (∃ s', TLRefCount.new.decrement 7 = some (42, s') ∧ FastPathFrame TLRefCount.new s' 7 (-1)) :=
  ⟨rfl, local_fast_path TLRefCount.new 7 rfl⟩

/-- C9 (`operator*`).  In the phases LOCAL and GLOBAL_TRANSITION the result is the constant 42,
strictly positive and the same for every `globalCount_` and every cell; in the phase GLOBAL it
is `globalCount_`; the state is unchanged in every case. -/
theorem load_by_phase (s : TLRefCount) :
    (s.state_ = State.LOCAL ∨ s.state_ = State.GLOBAL_TRANSITION →
      s.load.1 = 42 ∧ 0 < s.load.1 ∧
      ∀ g r, (TLRefCount.load { s with globalCount_ := g, localCount_ := r }).1 = s.load.1) ∧
    (s.state_ = State.GLOBAL → s.load.1 = s.globalCount_) ∧
    s.load.2 = s := by
  refine ⟨fun h => ?_, fun h => ?_, ?_⟩
  · have hne : s.state_ ≠ State.GLOBAL := by rcases h with h | h <;> rw [h] <;> decide
    simp [TLRefCount.load, hne]
  · simp [TLRefCount.load, h]
  · unfold TLRefCount.load
    split <;> rfl

theorem collectTimes_done (n : Nat) (c : LocalRefCount) (g : Int) (h : c.collectDone_ = true) :
    collectTimes n c g = (c, g) := by
  induction n with
  | zero => rfl
  | succ n ih => simp [collectTimes, LocalRefCount.collect, h, ih]

theorem collect_of_done (c : LocalRefCount) (g : Int) (h : c.collectDone_ = true) :
    c.collect g = (c, g) := by
  simp [LocalRefCount.collect, h]

theorem collect_done (c : LocalRefCount) (g : Int) : (c.collect g).1.collectDone_ = true := by
  cases hd : c.collectDone_ <;> simp [LocalRefCount.collect, hd]

/-- C10 (fold idempotence).  `collect()` on a cell that is not folded, with `count_ = d`, adds
exactly `d` to `globalCount_`, sets `collectCount_ = d` and `collectDone_ = true`, and leaves
`count_`; on a folded cell it changes nothing; called `n ≥ 1` times in a row it gives the same
cell and the same `globalCount_` as called once; the same holds for `collect()` on the cell of
a thread in a counter. -/
theorem collect_idempotent (c : LocalRefCount) (g : Int) :
    (c.collectDone_ = false →
      c.collect g = ({ count_ := c.count_, collectCount_ := c.count_, collectDone_ := true },
        g + c.count_)) ∧
    (c.collectDone_ = true → c.collect g = (c, g)) ∧
    (∀ n, 1 ≤ n → collectTimes n c g = c.collect g) ∧
    (∀ (s : TLRefCount) (t : Nat), (s.collectCell t).collectCell t = s.collectCell t) := by
  refine ⟨fun h => by simp [LocalRefCount.collect, h], fun h => by simp [LocalRefCount.collect, h],
    fun n hn => ?_, fun s t => ?_⟩
  · obtain ⟨m, rfl⟩ : ∃ m, n = m + 1 := ⟨n - 1, by omega⟩
    show collectTimes m (c.collect g).1 (c.collect g).2 = c.collect g
    rw [collectTimes_done m _ _ (collect_done c g)]
  · cases hf : findCell s.localCount_ t with
    | none => simp [TLRefCount.collectCell, hf]
    | some d =>
      have h1 : s.collectCell t =
          { s with localCount_ := storeCell s.localCount_ t (d.collect s.globalCount_).1,
                   globalCount_ := (d.collect s.globalCount_).2 } := by
        simp [TLRefCount.collectCell, hf]
      rw [h1]
      have h2 := collect_of_done (d.collect s.globalCount_).1 (d.collect s.globalCount_).2
        (collect_done d s.globalCount_)
      simp only [TLRefCount.collectCell, findCell_storeCell_same, storeCell_storeCell, h2]

/-- C13 (the local-phase result is only a success marker).  In the local phase, whatever
`count_` of the caller and `globalCount_` are, an increment and a decrement both return, and
the value returned is the fixed nonzero number 42. -/
theorem local_result_is_sentinel (s : TLRefCount) (t : Nat) (hp : s.state_ = State.LOCAL) :
    (∃ s', s.increment t = some (42, s')) ∧ (∃ s', s.decrement t = some (42, s')) ∧
    (∀ r s', s.increment t = some (r, s') → r = 42 ∧ r ≠ 0) ∧
    (∀ r s', s.decrement t = some (r, s') → r = 42 ∧ r ≠ 0) := by
  refine ⟨⟨_, increment_local s t hp⟩, ⟨_, decrement_local s t hp⟩, fun r s' h => ?_,
    fun r s' h => ?_⟩
  · rw [increment_local s t hp] at h
    have hr : (42 : Int) = r := (Prod.mk.inj (Option.some.inj h)).1
    exact ⟨hr.symm, by omega⟩
  · rw [decrement_local s t hp] at h
    have hr : (42 : Int) = r := (Prod.mk.inj (Option.some.inj h)).1
    exact ⟨hr.symm, by omega⟩

/-- C13 where `Q` is 0 before the call: the decrement takes `Q` to -1 and still returns 42. -/
theorem local_result_is_sentinel_witness :
    localAtZero.state_ = State.LOCAL ∧ localAtZero.Q = 0 ∧
    (∃ s', localAtZero.decrement 0 = some (42, s')) ∧
    (∀ r s', localAtZero.decrement 0 = some (r, s') → r = 42 ∧ r ≠ 0) :=
  ⟨rfl, by decide, (local_result_is_sentinel localAtZero 0 rfl).2.1,
    (local_result_is_sentinel localAtZero 0 rfl).2.2.2⟩

/-- C16 (decision table of `update`).  With `p1` the phase loaded at the first check and `p2`
the phase loaded at the re-check: when `p1` is not LOCAL the result is false and the cell is
unchanged; otherwise `delta` is added to `count_` and nothing else changes in the cell, and
the result is true when `p2` is LOCAL, true when `p2` is not LOCAL and the cell is not folded,
false when `p2` is not LOCAL and the cell is folded with `collectCount_` different from the
new `count_`, and true when `p2` is not LOCAL and the cell is folded with `collectCount_`
equal to the new `count_`. -/
theorem update_decision_table (c : LocalRefCount) (p1 p2 : State) (delta : Int) :
    (p1 ≠ State.LOCAL → c.update p1 p2 delta = (false, c)) ∧
    (p1 = State.LOCAL →
      (c.update p1 p2 delta).2 = { c with count_ := c.count_ + delta } ∧
      (p2 = State.LOCAL → (c.update p1 p2 delta).1 = true) ∧
      (p2 ≠ State.LOCAL → c.collectDone_ = false → (c.update p1 p2 delta).1 = true) ∧
      (p2 ≠ State.LOCAL → c.collectDone_ = true → c.collectCount_ ≠ c.count_ + delta →
        (c.update p1 p2 delta).1 = false) ∧
      (p2 ≠ State.LOCAL → c.collectDone_ = true → c.collectCount_ = c.count_ + delta →
        (c.update p1 p2 delta).1 = true)) := by
  refine ⟨fun h => by simp [LocalRefCount.update, h], fun h => ⟨?_, ?_, ?_, ?_, ?_⟩⟩
  · by_cases h2 : p2 = State.LOCAL
    · simp [LocalRefCount.update, h, h2]
    · cases hd : c.collectDone_
      · simp [LocalRefCount.update, h, h2, hd]
      · by_cases hc : c.collectCount_ = c.count_ + delta
        · simp [LocalRefCount.update, h, h2, hd, hc]
        · simp [LocalRefCount.update, h, h2, hd, hc]
  · intro h2
    simp [LocalRefCount.update, h, h2]
  · intro h2 hd
    simp [LocalRefCount.update, h, h2, hd]
  · intro h2 hd hc
    simp [LocalRefCount.update, h, h2, hd, hc]
  · intro h2 hd hc
    simp [LocalRefCount.update, h, h2, hd, hc]

/-- C17 (the assertion on the global path holds).  In every state reached from a fresh counter
by whole calls, with any number of `useGlobal()` calls and so with at most one, when `update`
returns false in an increment or a decrement then `state_` is GLOBAL at the assertion, and the
call returns. -/
theorem assertion_never_fails (s : TLRefCount) (hs : Reachable s) (t : Nat) :
    ((s.bump t 1).1 = false →
      (s.bump t 1).2.state_ = State.GLOBAL ∧ ∃ r s', s.increment t = some (r, s')) ∧
    ((s.bump t (-1)).1 = false →
      (s.bump t (-1)).2.state_ = State.GLOBAL ∧ ∃ r s', s.decrement t = some (r, s')) := by
  obtain ⟨hne, _⟩ := reachable_inv s hs
  cases hst : s.state_ with
  | GLOBAL_TRANSITION => exact absurd hst hne
  | LOCAL =>
    refine ⟨fun h => ?_, fun h => ?_⟩
    · rw [bump_local s t 1 hst] at h
      simp at h
    · rw [bump_local s t (-1) hst] at h
      simp at h
  | GLOBAL =>
    have hl : s.state_ ≠ State.LOCAL := by rw [hst]; decide
    refine ⟨fun _ => ⟨?_, ?_⟩, fun _ => ⟨?_, ?_⟩⟩
    · rw [bump_not_local s t 1 hl]; exact hst
    · rw [increment_global s t hst]
      by_cases hg : s.globalCount_ = 0
      · exact ⟨0, (s.access t).2, by simp [hg]⟩
      · exact ⟨s.globalCount_ + 1, { (s.access t).2 with globalCount_ := s.globalCount_ + 1 },
          by simp [hg]⟩
    · rw [bump_not_local s t (-1) hl]; exact hst
    · exact ⟨_, _, decrement_global s t hst⟩

/-- C17 right after `useGlobal()` on a fresh counter: `update` returns false and the
assertion holds. -/
theorem assertion_never_fails_witness :
    Reachable TLRefCount.new.useGlobal ∧ (TLRefCount.new.useGlobal.bump 0 1).1 = false ∧
    ((TLRefCount.new.useGlobal.bump 0 1).1 = false →
      (TLRefCount.new.useGlobal.bump 0 1).2.state_ = State.GLOBAL ∧
      ∃ r s', TLRefCount.new.useGlobal.increment 0 = some (r, s')) :=
  ⟨Reachable.useGlobal Reachable.init, by decide,
    (assertion_never_fails TLRefCount.new.useGlobal (Reachable.useGlobal Reachable.init) 0).1⟩

theorem findCell_eraseCell_other (r : List (Nat × LocalRefCount)) (t u : Nat) (hu : u ≠ t) :
    findCell (eraseCell r t) u = findCell r u := by
  induction r with
  | nil => rfl
  | cons e rest ih =>
    obtain ⟨v, d⟩ := e
    by_cases h : v = t
    · subst h
      simp [eraseCell, findCell, Ne.symm hu]
    · by_cases h2 : v = u
      · subst h2
        simp [eraseCell, findCell, hu]
      · simp [eraseCell, findCell, h, h2, ih]

/-- An increment in the local phase with no folded cell. -/
theorem increment_local_Q (s : TLRefCount) (t : Nat) (hp : s.state_ = State.LOCAL)
    (hn : NoneFolded s.localCount_) :
    ∃ s', s.increment t = some (42, s') ∧ s'.state_ = State.LOCAL ∧
      NoneFolded s'.localCount_ ∧ s'.Q = s.Q + 1 := by
  obtain ⟨s1, h1, hl, hn1, _, hq⟩ := step_local s (t, Op.inc) hp hn
  exact ⟨s1, h1, hl, hn1, by rw [hq]; simp [countOp]⟩

/-- A decrement in the local phase with no folded cell. -/
theorem decrement_local_Q (s : TLRefCount) (t : Nat) (hp : s.state_ = State.LOCAL)
    (hn : NoneFolded s.localCount_) :
    ∃ s', s.decrement t = some (42, s') ∧ s'.state_ = State.LOCAL ∧
      NoneFolded s'.localCount_ ∧ s'.Q = s.Q - 1 := by
  obtain ⟨s1, h1, hl, hn1, _, hq⟩ := step_local s (t, Op.dec) hp hn
  exact ⟨s1, h1, hl, hn1, by rw [hq]; simp [countOp]⟩

theorem destroyLocal_state (s : TLRefCount) (t : Nat) : (s.destroyLocal t).state_ = s.state_ := by
  unfold TLRefCount.destroyLocal
  cases findCell s.localCount_ t <;> rfl

theorem destroyLocal_mem (s : TLRefCount) (t : Nat) (e : Nat × LocalRefCount)
    (h : e ∈ (s.destroyLocal t).localCount_) : e ∈ s.localCount_ := by
  unfold TLRefCount.destroyLocal at h
  cases hf : findCell s.localCount_ t with
  | none => simpa [hf] using h
  | some c =>
    simp only [hf] at h
    exact mem_eraseCell _ _ _ h

theorem load_snd (s : TLRefCount) : s.load.2 = s := by
  unfold TLRefCount.load
  split <;> rfl

theorem numIncrements_cons (c : Call) (cs : List Call) :
    numIncrements (c :: cs) = numIncrements [c] + numIncrements cs := by
  cases c <;> simp [numIncrements, List.filter_cons]
  ring

theorem numDecrements_cons (c : Call) (cs : List Call) :
    numDecrements (c :: cs) = numDecrements [c] + numDecrements cs := by
  cases c <;> simp [numDecrements, List.filter_cons]
  ring

/-- A sequence of calls without `useGlobal()`, started in the local phase with no folded
cell, runs to its end in the same situation and moves `Q` by the increments minus the
decrements, teardowns included. -/
theorem runCalls_local (cs : List Call) (s : TLRefCount) (hp : s.state_ = State.LOCAL)
    (hn : NoneFolded s.localCount_) (hcs : Call.useGlobal ∉ cs) :
    ∃ s', runCalls cs s = some s' ∧ s'.state_ = State.LOCAL ∧ NoneFolded s'.localCount_ ∧
      s'.Q = s.Q + numIncrements cs - numDecrements cs := by
  induction cs generalizing s with
  | nil => exact ⟨s, rfl, hp, hn, by simp [numIncrements, numDecrements]⟩
  | cons c cs ih =>
    have hrest : Call.useGlobal ∉ cs := fun h => hcs (List.mem_cons_of_mem _ h)
    have key : ∃ r s1, call s c = some (r, s1) ∧ s1.state_ = State.LOCAL ∧
        NoneFolded s1.localCount_ ∧ s1.Q = s.Q + numIncrements [c] - numDecrements [c] := by
      cases c with
      | increment t =>
        obtain ⟨s1, h1, hl, hn1, hq⟩ := increment_local_Q s t hp hn
        exact ⟨42, s1, h1, hl, hn1, by rw [hq]; simp [numIncrements, numDecrements]⟩
      | decrement t =>
        obtain ⟨s1, h1, hl, hn1, hq⟩ := decrement_local_Q s t hp hn
        exact ⟨42, s1, h1, hl, hn1, by rw [hq]; simp [numIncrements, numDecrements]⟩
      | load =>
        refine ⟨s.load.1, s, ?_, hp, hn, by simp [numIncrements, numDecrements]⟩
        show some s.load = some (s.load.1, s)
        exact congrArg some (Prod.ext rfl (load_snd s))
      | useGlobal => exact absurd (List.mem_cons_self _ _) hcs
      | destroyLocal t =>
        refine ⟨0, s.destroyLocal t, rfl, by rw [destroyLocal_state]; exact hp,
          fun e he => hn e (destroyLocal_mem s t e he), ?_⟩
        rw [destroyLocal_Q]
        simp [numIncrements, numDecrements]
    obtain ⟨r, s1, h1, hl1, hn1, hq1⟩ := key
    obtain ⟨s2, h2, hl2, hn2, hq2⟩ := ih s1 hl1 hn1 hrest
    refine ⟨s2, by simp [runCalls, h1, h2], hl2, hn2, ?_⟩
    rw [hq2, hq1, numIncrements_cons c cs, numDecrements_cons c cs]
    ring

theorem withoutTeardown_counts (cs : List Call) :
    numIncrements (withoutTeardown cs) = numIncrements cs ∧
    numDecrements (withoutTeardown cs) = numDecrements cs ∧
    (Call.useGlobal ∉ cs → Call.useGlobal ∉ withoutTeardown cs) := by
  refine ⟨?_, ?_, fun h h' => h (List.mem_filter.mp h').1⟩
  · induction cs with
    | nil => rfl
    | cons c cs ih =>
      have h1 : withoutTeardown (c :: cs) = withoutTeardown [c] ++ withoutTeardown cs := by
        cases c <;> simp [withoutTeardown, List.filter_cons]
      rw [numIncrements_cons c cs, ← ih, h1]
      cases c <;> simp [withoutTeardown, numIncrements, List.filter_cons]
      all_goals ring
  · induction cs with
    | nil => rfl
    | cons c cs ih =>
      have h1 : withoutTeardown (c :: cs) = withoutTeardown [c] ++ withoutTeardown cs := by
        cases c <;> simp [withoutTeardown, List.filter_cons]
      rw [numDecrements_cons c cs, ← ih, h1]
      cases c <;> simp [withoutTeardown, numDecrements, List.filter_cons]
      all_goals ring

/-- C12 (teardown folds exactly once and keeps the count).  The teardown of a cell with
`count_ = d` adds `d` to `globalCount_` when the cell is not folded and leaves `globalCount_`
when it is folded, and touches neither the phase nor the cell of another thread.  For every
sequence of increments, decrements, loads and teardowns on a fresh counter (teardowns at any
place, so also after the last call of their thread), a `useGlobal()` afterwards gives
`globalCount_ = 1 + increments - decrements`, the value the same sequence gives without its
teardowns. -/
theorem teardown_keeps_total (cs : List Call) (hcs : Call.useGlobal ∉ cs) :
    (∀ (s : TLRefCount) (t : Nat) (c : LocalRefCount), findCell s.localCount_ t = some c →
      (c.collectDone_ = false → (s.destroyLocal t).globalCount_ = s.globalCount_ + c.count_) ∧
      (c.collectDone_ = true → (s.destroyLocal t).globalCount_ = s.globalCount_) ∧
      (s.destroyLocal t).state_ = s.state_ ∧
      ∀ u, u ≠ t → findCell (s.destroyLocal t).localCount_ u = findCell s.localCount_ u) ∧
    (∃ s', runCalls cs TLRefCount.new = some s' ∧ s'.state_ = State.LOCAL ∧
      s'.useGlobal.globalCount_ = 1 + numIncrements cs - numDecrements cs ∧
      ∃ s2, runCalls (withoutTeardown cs) TLRefCount.new = some s2 ∧
        s2.useGlobal.globalCount_ = s'.useGlobal.globalCount_) := by
  have hfresh : NoneFolded TLRefCount.new.localCount_ := by
    intro e he; simp [TLRefCount.new] at he
  have hq0 : TLRefCount.new.Q = 1 := by decide
  refine ⟨fun s t c hf => ⟨fun hd => ?_, fun hd => ?_, destroyLocal_state s t, fun u hu => ?_⟩, ?_⟩
  · simp [TLRefCount.destroyLocal, hf, LocalRefCount.collect, hd]
  · simp [TLRefCount.destroyLocal, hf, LocalRefCount.collect, hd]
  · simp [TLRefCount.destroyLocal, hf, findCell_eraseCell_other _ _ _ hu]
  · obtain ⟨s1, h1, hl1, _, hq1⟩ := runCalls_local cs TLRefCount.new rfl hfresh hcs
    obtain ⟨hi, hd, hu⟩ := withoutTeardown_counts cs
    obtain ⟨s2, h2, _, _, hq2⟩ :=
      runCalls_local (withoutTeardown cs) TLRefCount.new rfl hfresh (hu hcs)
    refine ⟨s1, h1, hl1, ?_, s2, h2, ?_⟩
    · rw [useGlobal_globalCount, hq1, hq0]
    · rw [useGlobal_globalCount, useGlobal_globalCount, hq1, hq2, hi, hd]

/-- C12 on two threads: thread 0 tears its cell down after its last call, thread 1 at the end;
the total after `useGlobal()` is 1 + 3 - 1 = 3. -/
theorem teardown_keeps_total_witness :
    Call.useGlobal ∉ [Call.increment 0, Call.increment 1, Call.decrement 0,
      Call.destroyLocal 0, Call.increment 1, Call.destroyLocal 1] ∧
    ∃ s', runCalls [Call.increment 0, Call.increment 1, Call.decrement 0,
        Call.destroyLocal 0, Call.increment 1, Call.destroyLocal 1] TLRefCount.new = some s' ∧
      s'.state_ = State.LOCAL ∧
      s'.useGlobal.globalCount_ = 1 + numIncrements [Call.increment 0, Call.increment 1,
        Call.decrement 0, Call.destroyLocal 0, Call.increment 1, Call.destroyLocal 1]
        - numDecrements [Call.increment 0, Call.increment 1, Call.decrement 0,
        Call.destroyLocal 0, Call.increment 1, Call.destroyLocal 1] ∧
      ∃ s2, runCalls (withoutTeardown [Call.increment 0, Call.increment 1, Call.decrement 0,
          Call.destroyLocal 0, Call.increment 1, Call.destroyLocal 1]) TLRefCount.new = some s2 ∧
        s2.useGlobal.globalCount_ = s'.useGlobal.globalCount_ :=
  ⟨by decide, (teardown_keeps_total _ (by decide)).2⟩

theorem access_mem (s : TLRefCount) (t : Nat) (e : Nat × LocalRefCount)
    (h : e ∈ (s.access t).2.localCount_) :
    e ∈ s.localCount_ ∨ e = (t, LocalRefCount.new) := by
  rw [access_eq] at h
  rcases mem_storeCell _ _ _ _ h with h1 | h1
  · exact Or.inl h1
  · cases hf : findCell s.localCount_ t with
    | none => right; rw [h1]; simp [cellOf, hf]
    | some c =>
      left
      rw [h1]
      have : cellOf s t = c := by simp [cellOf, hf]
      rw [this]
      exact mem_of_findCell _ _ _ hf

theorem access_unfoldedAreZero (s : TLRefCount) (t : Nat) (h : UnfoldedAreZero s.localCount_) :
    UnfoldedAreZero (s.access t).2.localCount_ := by
  intro e he hd
  rcases access_mem s t e he with h1 | h1
  · exact h e h1 hd
  · rw [h1]; rfl

theorem increment_global_localCount (s s' : TLRefCount) (t : Nat) (r : Int)
    (hp : s.state_ = State.GLOBAL) (h : s.increment t = some (r, s')) :
    s'.localCount_ = (s.access t).2.localCount_ := by
  rw [increment_global s t hp] at h
  by_cases hg : s.globalCount_ = 0
  · simp [hg] at h
    rw [← h.2]
  · simp [hg] at h
    rw [← h.2]

theorem decrement_global_localCount (s s' : TLRefCount) (t : Nat) (r : Int)
    (hp : s.state_ = State.GLOBAL) (h : s.decrement t = some (r, s')) :
    s'.localCount_ = (s.access t).2.localCount_ := by
  rw [decrement_global s t hp] at h
  simp at h
  rw [← h.2]

/-- In the global phase, between whole calls, a cell that is not folded has `count_ = 0`. -/
theorem reachable_global_zero (s : TLRefCount) (h : Reachable s) :
    s.state_ = State.GLOBAL → UnfoldedAreZero s.localCount_ := by
  induction h with
  | init => intro h; simp [TLRefCount.new] at h
  | @increment s s' t r _ hi ih =>
    intro hg
    have hst := increment_state s s' t r hi
    have hg0 : s.state_ = State.GLOBAL := by rw [← hst]; exact hg
    rw [increment_global_localCount s s' t r hg0 hi]
    exact access_unfoldedAreZero s t (ih hg0)
  | @decrement s s' t r _ hi ih =>
    intro hg
    have hst := decrement_state s s' t r hi
    have hg0 : s.state_ = State.GLOBAL := by rw [← hst]; exact hg
    rw [decrement_global_localCount s s' t r hg0 hi]
    exact access_unfoldedAreZero s t (ih hg0)
  | @useGlobal s _ _ =>
    intro _ e he hd
    have := collectAll_done s.localCount_ s.globalCount_ e he
    rw [this] at hd
    exact absurd hd (by decide)
  | @destroyLocal s t _ ih =>
    intro hg e he hd
    rw [destroyLocal_state] at hg
    exact ih hg e (destroyLocal_mem s t e he) hd

theorem unfoldedSum_of_zero (r : List (Nat × LocalRefCount)) (h : UnfoldedAreZero r) :
    unfoldedSum r = 0 := by
  induction r with
  | nil => rfl
  | cons e rest ih =>
    obtain ⟨u, d⟩ := e
    have hr := ih (fun e he => h e (List.mem_cons_of_mem _ he))
    have hd : d.collectDone_ = false → d.count_ = 0 := h (u, d) (List.mem_cons_self _ _)
    cases hdone : d.collectDone_ with
    | true => simp [unfoldedSum, hdone, hr]
    | false => simp [unfoldedSum, hdone, hr, hd hdone]

/-- The exact effect of an increment on `Q` between whole calls. -/
theorem increment_Q_exact (s : TLRefCount) (t : Nat) (hs : Reachable s) :
    ∃ r s', s.increment t = some (r, s') ∧
      s'.Q = s.Q + (if r ≠ 0 then 1 else 0) +
        (if r = 0 ∧ s.globalCount_ = -1 then 1 else 0) := by
  obtain ⟨hne, hloc⟩ := reachable_inv s hs
  cases hst : s.state_ with
  | GLOBAL_TRANSITION => exact absurd hst hne
  | LOCAL =>
    obtain ⟨s1, h1, _, _, hq⟩ := increment_local_Q s t hst (hloc hst)
    exact ⟨42, s1, h1, by rw [hq]; simp⟩
  | GLOBAL =>
    rw [increment_global s t hst]
    by_cases hg : s.globalCount_ = 0
    · refine ⟨0, (s.access t).2, by simp [hg], ?_⟩
      rw [access_Q]
      simp [hg]
    · refine ⟨s.globalCount_ + 1, { (s.access t).2 with globalCount_ := s.globalCount_ + 1 },
        by simp [hg], ?_⟩
      simp only [TLRefCount.Q, access_unfoldedSum]
      by_cases hm : s.globalCount_ = -1
      · simp [hm]
      · have h1 : s.globalCount_ + 1 ≠ 0 := by omega
        simp [h1, hm]
        ring

theorem events_reachable (cs : List Call) (s : TLRefCount) (hs : Reachable s) :
    ∃ evs s', events cs s = some (evs, s') ∧ Reachable s' ∧
      s'.Q = s.Q + nonzeroIncrements evs - decrementsOf evs + zeroStoringIncrements evs := by
  induction cs generalizing s with
  | nil =>
    exact ⟨[], s, rfl, hs, by simp [nonzeroIncrements, decrementsOf, zeroStoringIncrements]⟩
  | cons c cs ih =>
    have key : ∃ r s1, call s c = some (r, s1) ∧ Reachable s1 ∧
        s1.Q = s.Q + nonzeroIncrements [⟨c, s.globalCount_, r⟩]
          - decrementsOf [⟨c, s.globalCount_, r⟩]
          + zeroStoringIncrements [⟨c, s.globalCount_, r⟩] := by
      cases c with
      | increment t =>
        obtain ⟨r, s1, h1, hq⟩ := increment_Q_exact s t hs
        refine ⟨r, s1, h1, Reachable.increment hs h1, ?_⟩
        rw [hq]
        simp [nonzeroIncrements, decrementsOf, zeroStoringIncrements]
      | decrement t =>
        obtain ⟨r, s1, h1, hq⟩ := decrement_Q s t hs
        refine ⟨r, s1, h1, Reachable.decrement hs h1, ?_⟩
        rw [hq]
        simp [nonzeroIncrements, decrementsOf, zeroStoringIncrements]
      | load =>
        refine ⟨s.load.1, s, ?_, hs, by
          simp [nonzeroIncrements, decrementsOf, zeroStoringIncrements]⟩
        exact congrArg some (Prod.ext rfl (load_snd s))
      | useGlobal =>
        refine ⟨0, s.useGlobal, rfl, Reachable.useGlobal hs, ?_⟩
        rw [useGlobal_Q]
        simp [nonzeroIncrements, decrementsOf, zeroStoringIncrements]
      | destroyLocal t =>
        refine ⟨0, s.destroyLocal t, rfl, Reachable.destroyLocal hs, ?_⟩
        rw [destroyLocal_Q]
        simp [nonzeroIncrements, decrementsOf, zeroStoringIncrements]
    obtain ⟨r, s1, h1, hr1, hq1⟩ := key
    obtain ⟨evs, s2, h2, hr2, hq2⟩ := ih s1 hr1
    refine ⟨⟨c, s.globalCount_, r⟩ :: evs, s2, by simp [events, h1, h2], hr2, ?_⟩
    rw [hq2, hq1]
    simp only [nonzeroIncrements, decrementsOf, zeroStoringIncrements]
    ring

/-- C19, as stated, fails in its last part: after `useGlobal()`, two decrements and one
increment by thread 0 on a fresh counter the phase is GLOBAL and `globalCount_` is 0, while
1 + (increments that returned nonzero) - (decrements) is -1: the increment found -1, stored 0
and returned it. -/
theorem zero_result_escapes_the_count :
    ∃ evs s, events [Call.useGlobal, Call.decrement 0, Call.decrement 0, Call.increment 0]
        TLRefCount.new = some (evs, s) ∧
      s.state_ = State.GLOBAL ∧ s.globalCount_ = 0 ∧
      1 + nonzeroIncrements evs - decrementsOf evs = -1 :=
  ⟨_, _, rfl, by decide, by decide, by decide⟩

/-- C19, amended.  Every sequence of whole calls on a fresh counter runs to its end, and in
the state it reaches: in the phase GLOBAL every cell that is not folded has `count_ = 0`; in
the phase LOCAL no registered cell is folded; and in the phase GLOBAL `globalCount_` equals
1 + (increments that returned nonzero) - (decrements) + (increments that returned 0 after
finding `globalCount_ = -1`), which is 1 + (increments that returned nonzero) - (decrements)
when no increment of the history found `globalCount_ = -1`. -/
theorem global_total_is_authoritative (cs : List Call) :
    ∃ evs s, events cs TLRefCount.new = some (evs, s) ∧ Reachable s ∧
      (s.state_ = State.GLOBAL → UnfoldedAreZero s.localCount_) ∧
      (s.state_ = State.LOCAL → NoneFolded s.localCount_) ∧
      (s.state_ = State.GLOBAL →
        s.globalCount_ = 1 + nonzeroIncrements evs - decrementsOf evs
          + zeroStoringIncrements evs) ∧
      (s.state_ = State.GLOBAL → zeroStoringIncrements evs = 0 →
        s.globalCount_ = 1 + nonzeroIncrements evs - decrementsOf evs) := by
  obtain ⟨evs, s, h1, hr, hq⟩ := events_reachable cs TLRefCount.new Reachable.init
  have hq0 : TLRefCount.new.Q = 1 := by decide
  have hg : s.state_ = State.GLOBAL → s.globalCount_ = s.Q := by
    intro hp
    simp [TLRefCount.Q, unfoldedSum_of_zero _ (reachable_global_zero s hr hp)]
  refine ⟨evs, s, h1, hr, reachable_global_zero s hr, (reachable_inv s hr).2, fun hp => ?_,
    fun hp hz => ?_⟩
  · rw [hg hp, hq, hq0]
  · rw [hg hp, hq, hq0, hz]
    ring

theorem promoted_inv (s : TLRefCount) (h : Promoted s) :
    Reachable s ∧ s.state_ = State.GLOBAL := by
  induction h with
  | useGlobal hr => exact ⟨Reachable.useGlobal hr, rfl⟩
  | again _ ih => exact ⟨Reachable.useGlobal ih.1, rfl⟩
  | @increment s s' t r _ hi ih =>
    exact ⟨Reachable.increment ih.1 hi, by rw [increment_state s s' t r hi]; exact ih.2⟩
  | @decrement s s' t r _ hi ih =>
    exact ⟨Reachable.decrement ih.1 hi, by rw [decrement_state s s' t r hi]; exact ih.2⟩
  | @destroyLocal s t _ ih =>
    exact ⟨Reachable.destroyLocal ih.1, by rw [destroyLocal_state]; exact ih.2⟩

theorem collect_fst (c : LocalRefCount) (g g' : Int) : (c.collect g).1 = (c.collect g').1 := by
  cases hd : c.collectDone_ <;> simp [LocalRefCount.collect, hd]

theorem findCell_collectAll (r : List (Nat × LocalRefCount)) (g : Int) (u : Nat) :
    findCell (collectAll r g).1 u = (findCell r u).map (fun c => (c.collect 0).1) := by
  induction r generalizing g with
  | nil => rfl
  | cons e rest ih =>
    obtain ⟨v, d⟩ := e
    by_cases h : v = u
    · simp [collectAll, findCell, h, collect_fst d g 0]
    · simp [collectAll, findCell, h, ih]

/-- C18 (a second promotion does not change the count).  In every state reached from a fresh
counter by whole calls among which `useGlobal()` has completed at least once, another
`useGlobal()` leaves `globalCount_` unchanged, leaves every folded cell unchanged, and ends in
the phase GLOBAL; a cell that was not folded, which is one created after the promotion, has
`count_ = 0` and is folded with `collectCount_ = 0`. -/
theorem second_useGlobal_keeps_count (s : TLRefCount) (hs : Promoted s) :
    s.useGlobal.globalCount_ = s.globalCount_ ∧ s.useGlobal.state_ = State.GLOBAL ∧
    (∀ u c, findCell s.localCount_ u = some c → c.collectDone_ = true →
      findCell s.useGlobal.localCount_ u = some c) ∧
    (∀ u c, findCell s.localCount_ u = some c → c.collectDone_ = false →
      c.count_ = 0 ∧ findCell s.useGlobal.localCount_ u =
        some { count_ := 0, collectCount_ := 0, collectDone_ := true }) ∧
    (∀ u, findCell s.localCount_ u = none → findCell s.useGlobal.localCount_ u = none) := by
  obtain ⟨hr, hp⟩ := promoted_inv s hs
  have hz := reachable_global_zero s hr hp
  have hcells : ∀ u, findCell s.useGlobal.localCount_ u
      = (findCell s.localCount_ u).map (fun c => (c.collect 0).1) :=
    fun u => findCell_collectAll s.localCount_ s.globalCount_ u
  refine ⟨?_, rfl, fun u c hf hd => ?_, fun u c hf hd => ?_, fun u hf => ?_⟩
  · rw [useGlobal_globalCount]
    simp [TLRefCount.Q, unfoldedSum_of_zero _ hz]
  · rw [hcells u, hf]
    simp [LocalRefCount.collect, hd]
  · have h0 : c.count_ = 0 := hz (u, c) (mem_of_findCell _ _ _ hf) hd
    refine ⟨h0, ?_⟩
    rw [hcells u, hf]
    simp [LocalRefCount.collect, hd, h0]
  · rw [hcells u, hf]
    rfl

/-- C18 after `useGlobal()` and an increment by thread 3, whose cell is created after the
promotion: the second `useGlobal()` keeps `globalCount_ = 2`. -/
theorem second_useGlobal_keeps_count_witness :
    Promoted lateCell ∧ lateCell.useGlobal.globalCount_ = 2 :=
  ⟨Promoted.increment (Promoted.useGlobal Reachable.init)
      (by decide : TLRefCount.new.useGlobal.increment 3 = some (2, lateCell)),
    (second_useGlobal_keeps_count lateCell
      (Promoted.increment (Promoted.useGlobal Reachable.init)
        (by decide : TLRefCount.new.useGlobal.increment 3 = some (2, lateCell)))).1⟩

theorem useGlobal_stages (s : TLRefCount) :
    useGlobalLeave (useGlobalWalk (useGlobalEnter s)) = s.useGlobal := rfl

/-- A whole call other than `useGlobal()`, outside a promotion, returns and leaves `state_`. -/
theorem call_keeps_state (s : TLRefCount) (c : Call) (hc : c ≠ Call.useGlobal)
    (hp : s.state_ ≠ State.GLOBAL_TRANSITION) :
    ∃ r, call s c = some r ∧ r.2.state_ = s.state_ := by
  cases c with
  | useGlobal => exact absurd rfl hc
  | load => exact ⟨s.load, rfl, by rw [load_snd]⟩
  | destroyLocal t => exact ⟨(0, s.destroyLocal t), rfl, destroyLocal_state s t⟩
  | increment t =>
    cases hst : s.state_ with
    | GLOBAL_TRANSITION => exact absurd hst hp
    | LOCAL => exact ⟨_, increment_local s t hst, hst⟩
    | GLOBAL =>
      obtain ⟨r, s', h⟩ : ∃ r s', s.increment t = some (r, s') := by
        rw [increment_global s t hst]
        by_cases hg : s.globalCount_ = 0
        · exact ⟨0, (s.access t).2, by simp [hg]⟩
        · exact ⟨s.globalCount_ + 1,
            { (s.access t).2 with globalCount_ := s.globalCount_ + 1 }, by simp [hg]⟩
      exact ⟨(r, s'), h, by rw [← hst]; exact increment_state s s' t r h⟩
  | decrement t =>
    cases hst : s.state_ with
    | GLOBAL_TRANSITION => exact absurd hst hp
    | LOCAL => exact ⟨_, decrement_local s t hst, hst⟩
    | GLOBAL =>
      exact ⟨_, decrement_global s t hst, by simp [access_state, hst]⟩

theorem phasesOfCall_other (s : TLRefCount) (c : Call) (hc : c ≠ Call.useGlobal)
    (hp : s.state_ ≠ State.GLOBAL_TRANSITION) :
    ∃ s', phasesOfCall s c = some ([s.state_], s') ∧ s'.state_ = s.state_ := by
  obtain ⟨r, h1, h2⟩ := call_keeps_state s c hc hp
  refine ⟨r.2, ?_, h2⟩
  cases c with
  | useGlobal => exact absurd rfl hc
  | load => simp [phasesOfCall, h1, h2]
  | destroyLocal t => simp [phasesOfCall, h1, h2]
  | increment t => simp [phasesOfCall, h1, h2]
  | decrement t => simp [phasesOfCall, h1, h2]

theorem numUseGlobal_cons (c : Call) (cs : List Call) :
    numUseGlobal (c :: cs) = (if c = Call.useGlobal then 1 else 0) + numUseGlobal cs := by
  by_cases h : c = Call.useGlobal
  · simp [numUseGlobal, h]
    omega
  · simp [numUseGlobal, h]

/-- Once in the phase GLOBAL, calls other than `useGlobal()` stay in it. -/
theorem phasesAfter_global (cs : List Call) (s : TLRefCount) (hp : s.state_ = State.GLOBAL)
    (hcs : numUseGlobal cs = 0) :
    ∃ h, phasesAfter cs s = some h ∧ ∀ x ∈ h, x = State.GLOBAL := by
  induction cs generalizing s with
  | nil => exact ⟨[], rfl, fun x hx => by simp at hx⟩
  | cons c cs ih =>
    rw [numUseGlobal_cons] at hcs
    have hc : c ≠ Call.useGlobal := by
      intro h; simp [h] at hcs
    have hne : s.state_ ≠ State.GLOBAL_TRANSITION := by rw [hp]; decide
    obtain ⟨s1, h1, hp1⟩ := phasesOfCall_other s c hc hne
    obtain ⟨h, h2, hall⟩ := ih s1 (by rw [hp1]; exact hp) (by omega)
    refine ⟨[s.state_] ++ h, by simp [phasesAfter, h1, h2], fun x hx => ?_⟩
    rcases List.mem_append.mp hx with hx | hx
    · simp at hx; rw [hx]; exact hp
    · exact hall x hx

/-- From the phase LOCAL, with at most one `useGlobal()` among the calls, the phases written
never decrease. -/
theorem phasesAfter_local (cs : List Call) (s : TLRefCount) (hp : s.state_ = State.LOCAL)
    (hcs : numUseGlobal cs ≤ 1) :
    ∃ h, phasesAfter cs s = some h ∧ NeverDecreases h := by
  induction cs generalizing s with
  | nil => exact ⟨[], rfl, List.Pairwise.nil⟩
  | cons c cs ih =>
    rw [numUseGlobal_cons] at hcs
    by_cases hc : c = Call.useGlobal
    · subst hc
      simp at hcs
      obtain ⟨h, h2, hall⟩ := phasesAfter_global cs s.useGlobal rfl (by omega)
      refine ⟨[State.GLOBAL_TRANSITION, State.GLOBAL_TRANSITION, State.GLOBAL] ++ h, ?_, ?_⟩
      · simp only [phasesAfter, phasesOfCall, useGlobal_stages, h2]
        rfl
      · have hr : ∀ x ∈ h, x.rank = 2 := fun x hx => by rw [hall x hx]; rfl
        unfold NeverDecreases
        simp only [List.cons_append, List.nil_append, List.pairwise_cons, List.mem_cons]
        refine ⟨?_, ?_, ?_, ?_⟩
        · rintro x (hx | hx | hx)
          · rw [hx]
          · rw [hx]; decide
          · rw [hr x hx]; decide
        · rintro x (hx | hx)
          · rw [hx]; decide
          · rw [hr x hx]; decide
        · intro x hx
          rw [hr x hx]; decide
        · exact List.Pairwise.imp_of_mem
            (fun {a b} ha hb _ => by rw [hr a ha, hr b hb])
            (List.pairwise_of_forall (fun _ _ => trivial))
    · have hne : s.state_ ≠ State.GLOBAL_TRANSITION := by rw [hp]; decide
      obtain ⟨s1, h1, hp1⟩ := phasesOfCall_other s c hc hne
      obtain ⟨h, h2, hmono⟩ := ih s1 (by rw [hp1]; exact hp) (by simp [hc] at hcs; omega)
      refine ⟨[s.state_] ++ h, by simp [phasesAfter, h1, h2], ?_⟩
      unfold NeverDecreases
      simp only [List.cons_append, List.nil_append, List.pairwise_cons]
      exact ⟨fun x _ => by rw [hp]; exact Nat.zero_le _, hmono⟩

/-- C11, as stated, fails: with two `useGlobal()` calls on a fresh counter the phase goes
LOCAL, GLOBAL_TRANSITION, GLOBAL and then back to GLOBAL_TRANSITION, written at line 87 of the
second call. -/
theorem second_useGlobal_regresses :
    phaseHistory [Call.useGlobal, Call.useGlobal] TLRefCount.new =
      some [State.LOCAL, State.GLOBAL_TRANSITION, State.GLOBAL_TRANSITION, State.GLOBAL,
        State.GLOBAL_TRANSITION, State.GLOBAL_TRANSITION, State.GLOBAL] ∧
    ¬ NeverDecreases [State.LOCAL, State.GLOBAL_TRANSITION, State.GLOBAL_TRANSITION,
        State.GLOBAL, State.GLOBAL_TRANSITION, State.GLOBAL_TRANSITION, State.GLOBAL] := by
  refine ⟨by decide, ?_⟩
  unfold NeverDecreases
  decide

/-- C11, amended.  Under the order LOCAL < GLOBAL_TRANSITION < GLOBAL, every sequence of
public operations (increment, decrement, load, `useGlobal()`, teardown of a cell) on a fresh
counter that calls `useGlobal()` at most once runs to its end, and the successive values of
`state_`, the value written at line 87 of `useGlobal()` included, never decrease: no value is
below an earlier one, so after GLOBAL there is no GLOBAL_TRANSITION and no LOCAL. -/
theorem phase_never_decreases (cs : List Call) (hcs : numUseGlobal cs ≤ 1) :
    ∃ h, phaseHistory cs TLRefCount.new = some h ∧ NeverDecreases h ∧
      ∀ pre post, h = pre ++ State.GLOBAL :: post → ∀ x ∈ post, x = State.GLOBAL := by
  obtain ⟨h, h1, hmono⟩ := phasesAfter_local cs TLRefCount.new rfl hcs
  have hall : NeverDecreases (State.LOCAL :: h) := by
    unfold NeverDecreases
    exact List.pairwise_cons.mpr ⟨fun x _ => Nat.zero_le _, hmono⟩
  refine ⟨State.LOCAL :: h, by simp only [phaseHistory, h1]; rfl, hall, ?_⟩
  intro pre post heq x hx
  unfold NeverDecreases at hall
  rw [heq] at hall
  have h2 := (List.pairwise_cons.mp (List.pairwise_append.mp hall).2.1).1 x hx
  cases x with
  | GLOBAL => rfl
  | LOCAL => exact absurd h2 (by decide)
  | GLOBAL_TRANSITION => exact absurd h2 (by decide)

/-- C11 amended, on a sequence with one `useGlobal()` between calls of two threads. -/
theorem phase_never_decreases_witness :
    numUseGlobal [Call.increment 0, Call.load, Call.useGlobal, Call.decrement 1,
      Call.destroyLocal 0, Call.increment 0] ≤ 1 ∧
    ∃ h, phaseHistory [Call.increment 0, Call.load, Call.useGlobal, Call.decrement 1,
        Call.destroyLocal 0, Call.increment 0] TLRefCount.new = some h ∧ NeverDecreases h ∧
      ∀ pre post, h = pre ++ State.GLOBAL :: post → ∀ x ∈ post, x = State.GLOBAL :=
  ⟨by decide, phase_never_decreases _ (by decide)⟩

/-- C15 (the stack trace callback on failure).  When `getStackTraceSafe` reports failure,
`stackTraceGetter` returns the empty string and makes no call into the symbolizer; whatever
`getStackTraceSafe` reports, the frames captured are at most 100. -/
theorem stackTraceGetter_on_failure
    (getStackTraceSafe : FrameArray kMaxStackTraceDepth → Bool × FrameArray kMaxStackTraceDepth)
    (symbolize : Nat → FrameArray kMaxStackTraceDepth → FrameArray kMaxStackTraceDepth)
    (println : FrameArray kMaxStackTraceDepth → String) :
    ((getStackTraceSafe (FrameArray.empty kMaxStackTraceDepth)).1 = false →
      stackTraceGetter getStackTraceSafe symbolize println = ("", [])) ∧
    capturedFrames getStackTraceSafe ≤ 100 := by
  refine ⟨fun hfail => by simp [stackTraceGetter, hfail], ?_⟩
  have h := (getStackTraceSafe (FrameArray.empty kMaxStackTraceDepth)).2.frameCount.isLt
  unfold capturedFrames
  simp only [kMaxStackTraceDepth] at h ⊢
  omega

/-- C15 with a capture that always fails, and a printer that would return a nonempty text. -/
theorem stackTraceGetter_on_failure_witness :
    stackTraceGetter (fun a => (false, a)) (fun _ a => a) (fun _ => "frames") = ("", []) ∧
    capturedFrames (fun a => (false, a)) ≤ 100 :=
  ⟨(stackTraceGetter_on_failure (fun a => (false, a)) (fun _ a => a) (fun _ => "frames")).1 rfl,
    (stackTraceGetter_on_failure (fun a => (false, a)) (fun _ a => a) (fun _ => "frames")).2⟩

/-! ## The race of one call with `useGlobal()` -/

theorem collectAt_length (r : List (Nat × LocalRefCount)) (i : Nat) (g : Int) :
    (collectAt r i g).1.length = r.length := by
  induction r generalizing i with
  | nil => rfl
  | cons e rest ih =>
    obtain ⟨u, d⟩ := e
    cases i with
    | zero => simp [collectAt]
    | succ k => simp [collectAt, ih]

theorem collectAt_Q (r : List (Nat × LocalRefCount)) (i : Nat) (g : Int) :
    (collectAt r i g).2 + unfoldedSum (collectAt r i g).1 = g + unfoldedSum r := by
  induction r generalizing i with
  | nil => rfl
  | cons e rest ih =>
    obtain ⟨u, d⟩ := e
    cases i with
    | zero =>
      cases hd : d.collectDone_ with
      | true => simp [collectAt, unfoldedSum, LocalRefCount.collect, hd]
      | false =>
        simp [collectAt, unfoldedSum, LocalRefCount.collect, hd]
        ring
    | succ k =>
      have := ih k
      simp only [collectAt, unfoldedSum]
      omega

theorem collectAt_foldedUpTo (r : List (Nat × LocalRefCount)) (i : Nat) (g : Int)
    (h : FoldedUpTo i r) : FoldedUpTo (i + 1) (collectAt r i g).1 := by
  induction r generalizing i with
  | nil => intro b hb; simp [collectAt, flags] at hb
  | cons e rest ih =>
    obtain ⟨u, d⟩ := e
    cases i with
    | zero =>
      intro b hb
      simp [collectAt, flags] at hb
      rw [hb]
      exact collect_done d g
    | succ k =>
      intro b hb
      simp only [collectAt, flags, List.map_cons, List.take_succ_cons, List.mem_cons] at hb
      rcases hb with hb | hb
      · exact h b (by simp [flags, hb])
      · exact ih k (fun b' hb' => h b' (by
          simp only [flags, List.map_cons, List.take_succ_cons, List.mem_cons]
          exact Or.inr hb')) b hb

theorem findCell_collectAt (r : List (Nat × LocalRefCount)) (i : Nat) (g : Int) (t : Nat)
    (c : LocalRefCount) (h : findCell r t = some c) :
    findCell (collectAt r i g).1 t = some c ∨
      findCell (collectAt r i g).1 t = some (c.collect 0).1 := by
  induction r generalizing i with
  | nil => simp [findCell] at h
  | cons e rest ih =>
    obtain ⟨u, d⟩ := e
    cases i with
    | zero =>
      by_cases hu : u = t
      · simp only [findCell, hu, if_true, Option.some.injEq] at h
        right
        simp [collectAt, findCell, hu, h, collect_fst c g 0]
      · simp only [findCell, hu, if_false] at h
        left
        simp [collectAt, findCell, hu, h]
    | succ k =>
      by_cases hu : u = t
      · simp only [findCell, hu, if_true, Option.some.injEq] at h
        left
        simp [collectAt, findCell, hu, h]
      · simp only [findCell, hu, if_false] at h
        simpa [collectAt, findCell, hu] using ih k h

theorem flags_storeCell (r : List (Nat × LocalRefCount)) (t : Nat) (c c' : LocalRefCount)
    (h : findCell r t = some c) (hc : c'.collectDone_ = c.collectDone_) :
    flags (storeCell r t c') = flags r := by
  induction r with
  | nil => simp [findCell] at h
  | cons e rest ih =>
    obtain ⟨u, d⟩ := e
    by_cases hu : u = t
    · simp only [findCell, hu, if_true, Option.some.injEq] at h
      simp [storeCell, flags, hu, hc, h]
    · simp only [findCell, hu, if_false] at h
      have := ih h
      simp only [flags] at this
      simp [storeCell, flags, hu, this]

theorem noneFolded_iff_flags (r : List (Nat × LocalRefCount)) :
    NoneFolded r ↔ ∀ b ∈ flags r, b = false := by
  simp [NoneFolded, flags]

theorem allFolded_take (i : Nat) (r : List (Nat × LocalRefCount)) (h : FoldedUpTo i r)
    (hi : r.length ≤ i) : AllFolded r := by
  intro b hb
  apply h b
  rw [List.take_of_length_le (by simpa [flags] using hi)]
  exact hb

theorem unfoldedSum_allFolded (r : List (Nat × LocalRefCount)) (h : AllFolded r) :
    unfoldedSum r = 0 :=
  unfoldedSum_of_done r (fun _ he => h _ (List.mem_map_of_mem _ he))

theorem collectCellAt_Q (s : TLRefCount) (i : Nat) : (collectCellAt s i).Q = s.Q := by
  simp only [collectCellAt, TLRefCount.Q]
  exact collectAt_Q s.localCount_ i s.globalCount_

/-- After `collect()` at some position the cell of `t` is as before or has been collected. -/
theorem cellOf_collectCellAt (s : TLRefCount) (i t : Nat) (c : LocalRefCount)
    (h : findCell s.localCount_ t = some c) :
    (findCell (collectCellAt s i).localCount_ t = some c ∧ cellOf (collectCellAt s i) t = c) ∨
    (findCell (collectCellAt s i).localCount_ t = some (c.collect 0).1 ∧
      cellOf (collectCellAt s i) t = (c.collect 0).1) := by
  rcases findCell_collectAt s.localCount_ i s.globalCount_ t c h with h1 | h1
  · left
    exact ⟨h1, by simp [cellOf, collectCellAt, h1]⟩
  · right
    exact ⟨h1, by simp [cellOf, collectCellAt, h1]⟩

/-- What `collect()` does to a cell, field by field. -/
theorem collect_fields (c : LocalRefCount) (g : Int) :
    (c.collect g).1.count_ = c.count_ ∧ (c.collect g).1.collectDone_ = true ∧
    (c.collectDone_ = true → (c.collect g).1 = c) ∧
    (c.collectDone_ = false → (c.collect g).1.collectCount_ = c.count_) := by
  cases hd : c.collectDone_ <;> simp [LocalRefCount.collect, hd]

theorem missed_collect (c : LocalRefCount) (n : Int) (hn : c.count_ = n) :
    Missed (c.collect 0).1 n ↔ Missed c n := by
  obtain ⟨_, h2, h3, h4⟩ := collect_fields c 0
  cases hd : c.collectDone_ with
  | true => rw [h3 hd]
  | false =>
    simp only [Missed, h2, h4 hd, hn, hd]
    simp

theorem cellOf_of_findCell (s : TLRefCount) (t : Nat) (c : LocalRefCount)
    (h : findCell s.localCount_ t = some c) : cellOf s t = c := by
  simp [cellOf, h]

/-- A step of the promoter keeps the invariant of the race. -/
theorem stepPromoter_inv (t : Nat) (op : Op) (q0 : Int) (c : Race) (h : RaceInv t op q0 c) :
    RaceInv t op q0 (stepPromoter c) := by
  obtain ⟨s, th, pr⟩ := c
  obtain ⟨⟨cell, hcell⟩, hP, hT⟩ := h
  have hcellOf := cellOf_of_findCell s t cell hcell
  cases pr with
  | enter =>
    simp only [PromoterInv] at hP
    refine ⟨⟨cell, hcell⟩, ⟨rfl, fun b hb => by simp at hb⟩, ?_⟩
    have hQ : (useGlobalEnter s).Q = s.Q := rfl
    have hc : cellOf (useGlobalEnter s) t = cellOf s t := rfl
    cases th with
    | returned fast r =>
      cases fast with
      | true => exact hT
      | false =>
        simp only [ThreadInv] at hT
        rw [hP.1] at hT
        exact absurd hT.1 (by decide)
    | arithmetic =>
      simp only [ThreadInv] at hT
      rw [hP.1] at hT
      exact absurd hT.2 (by decide)
    | globalPath =>
      exact ⟨hT.1, by show State.GLOBAL_TRANSITION ≠ State.LOCAL; decide⟩
    | lockMutex =>
      exact ⟨hT.1, by show State.GLOBAL_TRANSITION ≠ State.LOCAL; decide⟩
    | firstRead => exact hT
    | write => exact hT
    | secondRead n => exact hT
    | check n => exact hT
    | assertFailed => exact hT
  | walk i =>
    simp only [PromoterInv] at hP
    by_cases hi : i < s.localCount_.length
    · have hstep : stepPromoter ⟨s, th, PromoterPc.walk i⟩
          = ⟨collectCellAt s i, th, PromoterPc.walk (i + 1)⟩ := by
        simp [stepPromoter, hi]
      rw [hstep]
      have hQ := collectCellAt_Q s i
      have hst : (collectCellAt s i).state_ = s.state_ := rfl
      obtain ⟨_, hd2, hd3, hd4⟩ := collect_fields cell 0
      have hcount : (cell.collect 0).1.count_ = cell.count_ := (collect_fields cell 0).1
      refine ⟨?_, ⟨hP.1, collectAt_foldedUpTo _ _ _ hP.2⟩, ?_⟩
      · rcases cellOf_collectCellAt s i t cell hcell with h1 | h1
        · exact ⟨_, h1.1⟩
        · exact ⟨_, h1.1⟩
      · have hfold : ((cellOf s t).collectDone_ = true →
              (cellOf s t).collectCount_ = (cellOf s t).count_) →
            ((cellOf (collectCellAt s i) t).collectDone_ = true →
              (cellOf (collectCellAt s i) t).collectCount_
                = (cellOf (collectCellAt s i) t).count_) := by
          intro hc hd'
          rcases cellOf_collectCellAt s i t cell hcell with h1 | h1
          · rw [h1.2] at hd' ⊢
            rw [hcellOf] at hc
            exact hc hd'
          · rw [h1.2]
            cases hd : cell.collectDone_ with
            | true =>
              rw [hd3 hd]
              rw [hcellOf] at hc
              exact hc hd
            | false => rw [hd4 hd, hcount]
        have hmiss : ∀ n, (cellOf s t).count_ = n →
            ((cellOf (collectCellAt s i) t).count_ = n ∧
              (Missed (cellOf (collectCellAt s i) t) n ↔ Missed (cellOf s t) n)) := by
          intro n hn
          rw [hcellOf] at hn ⊢
          rcases cellOf_collectCellAt s i t cell hcell with h1 | h1
          · rw [h1.2]; exact ⟨hn, Iff.rfl⟩
          · rw [h1.2]; exact ⟨by rw [hcount]; exact hn, missed_collect cell n hn⟩
        cases th with
        | firstRead => exact ⟨by rw [hQ]; exact hT.1, hfold hT.2⟩
        | write => exact ⟨by rw [hQ]; exact hT.1, hfold hT.2⟩
        | secondRead n =>
          obtain ⟨h1, h2⟩ := hmiss n hT.1
          exact ⟨h1, fun hm => by rw [hQ]; exact hT.2.1 (h2.mp hm),
            fun hm => by rw [hQ]; exact hT.2.2 (fun hm' => hm (h2.mpr hm'))⟩
        | check n =>
          obtain ⟨h1, h2⟩ := hmiss n hT.1
          exact ⟨h1, fun hm => by rw [hQ]; exact hT.2.1 (h2.mp hm),
            fun hm => by rw [hQ]; exact hT.2.2 (fun hm' => hm (h2.mpr hm'))⟩
        | globalPath => exact ⟨by rw [hQ]; exact hT.1, hT.2⟩
        | lockMutex => exact ⟨by rw [hQ]; exact hT.1, hT.2⟩
        | arithmetic => exact ⟨by rw [hQ]; exact hT.1, hT.2⟩
        | returned fast r =>
          cases fast with
          | true => exact ⟨hT.1, by rw [hQ]; exact hT.2.1, hfold hT.2.2⟩
          | false =>
            simp only [ThreadInv] at hT
            rw [hP.1] at hT
            exact absurd hT.1 (by decide)
        | assertFailed => exact hT
    · have hstep : stepPromoter ⟨s, th, PromoterPc.walk i⟩ = ⟨s, th, PromoterPc.leave⟩ := by
        simp [stepPromoter, hi]
      rw [hstep]
      have hlen : s.localCount_.length ≤ i := by omega
      refine ⟨⟨cell, hcell⟩, ⟨hP.1, allFolded_take i _ hP.2 hlen⟩, ?_⟩
      cases th <;> exact hT
  | leave =>
    simp only [PromoterInv] at hP
    refine ⟨⟨cell, hcell⟩, ⟨rfl, hP.2⟩, ?_⟩
    cases th with
    | returned fast r =>
      cases fast with
      | true => exact hT
      | false => exact ⟨rfl, hT.2⟩
    | arithmetic => exact ⟨hT.1, rfl⟩
    | globalPath => exact ⟨hT.1, by show State.GLOBAL ≠ State.LOCAL; decide⟩
    | lockMutex => exact ⟨hT.1, by show State.GLOBAL ≠ State.LOCAL; decide⟩
    | firstRead => exact hT
    | write => exact hT
    | secondRead n => exact hT
    | check n => exact hT
    | assertFailed => exact hT
  | unlock =>
    refine ⟨⟨cell, hcell⟩, hP, ?_⟩
    cases th <;> exact hT
  | finished => exact ⟨⟨cell, hcell⟩, hP, hT⟩

theorem delta_ne_zero (op : Op) : op.delta ≠ 0 := by
  cases op <;> decide

/-- Outside the phase LOCAL the promoter has started. -/
theorem promoter_started (c : Race) (hP : PromoterInv c) (h : c.counter.state_ ≠ State.LOCAL) :
    c.promoter ≠ PromoterPc.enter := by
  intro he
  simp only [PromoterInv, he] at hP
  exact h hP.1

/-- In the phase LOCAL no cell is folded. -/
theorem local_noneFolded (c : Race) (hP : PromoterInv c) (h : c.counter.state_ = State.LOCAL) :
    NoneFolded c.counter.localCount_ := by
  obtain ⟨s, th, pr⟩ := c
  cases pr with
  | enter => exact hP.2
  | walk i => exact absurd (h.symm.trans hP.1) (by decide)
  | leave => exact absurd (h.symm.trans hP.1) (by decide)
  | unlock => exact absurd (h.symm.trans hP.1) (by decide)
  | finished => exact absurd (h.symm.trans hP.1) (by decide)

/-- In the phase GLOBAL every cell is folded. -/
theorem global_allFolded (c : Race) (hP : PromoterInv c) (h : c.counter.state_ = State.GLOBAL) :
    AllFolded c.counter.localCount_ := by
  obtain ⟨s, th, pr⟩ := c
  cases pr with
  | enter => exact absurd (h.symm.trans hP.1) (by decide)
  | walk i => exact absurd (h.symm.trans hP.1) (by decide)
  | leave => exact absurd (h.symm.trans hP.1) (by decide)
  | unlock => exact hP.2
  | finished => exact hP.2

/-- The promoter's part of the invariant only looks at the promoter, the phase and the
flags of the cells. -/
theorem promoterInv_congr (c c' : Race) (hpr : c'.promoter = c.promoter)
    (hst : c'.counter.state_ = c.counter.state_)
    (hfl : flags c'.counter.localCount_ = flags c.counter.localCount_) (hP : PromoterInv c) :
    PromoterInv c' := by
  obtain ⟨s, th, pr⟩ := c
  obtain ⟨s', th', pr'⟩ := c'
  simp only at hpr hst hfl
  subst hpr
  cases pr' with
  | enter =>
    exact ⟨hst.trans hP.1, (noneFolded_iff_flags _).mpr (by
      rw [hfl]; exact (noneFolded_iff_flags _).mp hP.2)⟩
  | walk i =>
    refine ⟨hst.trans hP.1, ?_⟩
    have := hP.2
    unfold FoldedUpTo at this ⊢
    rw [hfl]; exact this
  | leave =>
    refine ⟨hst.trans hP.1, ?_⟩
    have := hP.2
    unfold AllFolded at this ⊢
    rw [hfl]; exact this
  | unlock =>
    refine ⟨hst.trans hP.1, ?_⟩
    have := hP.2
    unfold AllFolded at this ⊢
    rw [hfl]; exact this
  | finished =>
    refine ⟨hst.trans hP.1, ?_⟩
    have := hP.2
    unfold AllFolded at this ⊢
    rw [hfl]; exact this

theorem writeCount_facts (s : TLRefCount) (t : Nat) (delta : Int) (cell : LocalRefCount)
    (hcell : findCell s.localCount_ t = some cell) :
    findCell (writeCount s t delta).localCount_ t
      = some { cell with count_ := cell.count_ + delta } ∧
    cellOf (writeCount s t delta) t = { cell with count_ := cell.count_ + delta } ∧
    flags (writeCount s t delta).localCount_ = flags s.localCount_ ∧
    (writeCount s t delta).state_ = s.state_ ∧
    (writeCount s t delta).Q = s.Q - pending cell
      + pending { cell with count_ := cell.count_ + delta } := by
  have hc := cellOf_of_findCell s t cell hcell
  have h1 : findCell (writeCount s t delta).localCount_ t
      = some { cell with count_ := cell.count_ + delta } := by
    simp [writeCount, hc, findCell_storeCell_same]
  refine ⟨h1, cellOf_of_findCell _ t _ h1, ?_, rfl, ?_⟩
  · simp only [writeCount, hc]
    exact flags_storeCell _ _ cell _ hcell rfl
  · simp only [writeCount, TLRefCount.Q, unfoldedSum_storeCell, hcell, hc]
    ring

/-- The arithmetic of the global path once the promotion is complete. -/
theorem globalArithmetic_outcome (op : Op) (s : TLRefCount) (q0 : Int)
    (hst : s.state_ = State.GLOBAL) (hg : s.globalCount_ = q0) :
    ∃ r s', globalArithmetic op s = some (r, s') ∧ s'.state_ = State.GLOBAL ∧
      s'.localCount_ = s.localCount_ ∧ GlobalOutcome op q0 r s'.globalCount_ := by
  cases op with
  | inc =>
    by_cases hz : s.globalCount_ = 0
    · refine ⟨0, s, by simp [globalArithmetic, TLRefCount.incrementGlobal, hst, hz], hst, rfl, ?_⟩
      exact Or.inr ⟨by rw [← hg]; exact hz, hz, rfl⟩
    · refine ⟨s.globalCount_ + 1, { s with globalCount_ := s.globalCount_ + 1 },
        by simp [globalArithmetic, TLRefCount.incrementGlobal, hst, hz], hst, rfl, ?_⟩
      exact Or.inl ⟨by rw [← hg]; exact hz, by rw [← hg], by rw [← hg]⟩
  | dec =>
    refine ⟨s.globalCount_ - 1, { s with globalCount_ := s.globalCount_ - 1 },
      by simp [globalArithmetic, TLRefCount.decrementGlobal, hst], hst, rfl, ?_⟩
    exact ⟨by rw [← hg], by rw [← hg]⟩

/-- A step of the calling thread keeps the invariant of the race. -/
theorem stepThread_inv (t : Nat) (op : Op) (q0 : Int) (c : Race) (h : RaceInv t op q0 c) :
    RaceInv t op q0 (stepThread t op c) := by
  obtain ⟨⟨cell, hcell⟩, hP, hT⟩ := h
  have hcellOf := cellOf_of_findCell c.counter t cell hcell
  obtain ⟨s, th, pr⟩ := c
  simp only at hcell hcellOf
  cases th with
  | firstRead =>
    by_cases hl : s.state_ = State.LOCAL
    · have hstep : stepThread t op ⟨s, ThreadPc.firstRead, pr⟩ = ⟨s, ThreadPc.write, pr⟩ := by
        simp [stepThread, hl]
      rw [hstep]
      exact ⟨⟨cell, hcell⟩, promoterInv_congr _ _ rfl rfl rfl hP, hT⟩
    · have hstep : stepThread t op ⟨s, ThreadPc.firstRead, pr⟩
          = ⟨s, ThreadPc.globalPath, pr⟩ := by
        simp [stepThread, hl]
      rw [hstep]
      exact ⟨⟨cell, hcell⟩, promoterInv_congr _ _ rfl rfl rfl hP, hT.1, hl⟩
  | write =>
    obtain ⟨h1, h2, h3, h4, h5⟩ := writeCount_facts s t op.delta cell hcell
    have hstep : stepThread t op ⟨s, ThreadPc.write, pr⟩
        = ⟨writeCount s t op.delta, ThreadPc.secondRead (cell.count_ + op.delta), pr⟩ := by
      simp [stepThread, hcellOf]
    rw [hstep]
    refine ⟨⟨_, h1⟩, promoterInv_congr ⟨s, ThreadPc.write, pr⟩ _ rfl h4 h3 hP, ?_⟩
    have hq : s.Q = q0 := hT.1
    have hcc : cell.collectDone_ = true → cell.collectCount_ = cell.count_ := by
      have := hT.2
      simp only [hcellOf] at this
      exact this
    have hd := delta_ne_zero op
    show (cellOf (writeCount s t op.delta) t).count_ = cell.count_ + op.delta ∧ _
    rw [h2, h5, hq]
    refine ⟨rfl, fun hm => ?_, fun hm => ?_⟩
    · have hdone : cell.collectDone_ = true := hm.1
      simp [pending, hdone]
    · cases hdone : cell.collectDone_ with
      | false =>
        simp [pending, hdone]
        ring
      | true =>
        exfalso
        apply hm
        refine ⟨hdone, ?_⟩
        show cell.collectCount_ ≠ cell.count_ + op.delta
        rw [hcc hdone]
        omega
  | secondRead n =>
    by_cases hl : s.state_ = State.LOCAL
    · have hstep : stepThread t op ⟨s, ThreadPc.secondRead n, pr⟩
          = ⟨s, ThreadPc.returned true 42, pr⟩ := by
        simp [stepThread, hl]
      rw [hstep]
      have hnf : cell.collectDone_ = false :=
        local_noneFolded _ hP hl _ (mem_of_findCell _ _ _ hcell)
      have hnm : ¬ Missed (cellOf s t) n := by
        rw [hcellOf]
        intro hm
        have hd := hm.1
        rw [hnf] at hd
        exact absurd hd (by decide)
      refine ⟨⟨cell, hcell⟩, promoterInv_congr _ _ rfl rfl rfl hP, rfl, hT.2.2 hnm, ?_⟩
      intro hd
      rw [hcellOf, hnf] at hd
      exact absurd hd (by decide)
    · have hstep : stepThread t op ⟨s, ThreadPc.secondRead n, pr⟩
          = ⟨s, ThreadPc.check n, pr⟩ := by
        simp [stepThread, hl]
      rw [hstep]
      exact ⟨⟨cell, hcell⟩, promoterInv_congr _ _ rfl rfl rfl hP, hT⟩
  | check n =>
    have hcount : cell.count_ = n := by
      have := hT.1
      simp only [hcellOf] at this
      exact this
    by_cases hm : Missed cell n
    · have hstep : stepThread t op ⟨s, ThreadPc.check n, pr⟩
          = ⟨s, ThreadPc.globalPath, pr⟩ := by
        simp [stepThread, hcellOf, LocalRefCount.recheck, hm.1, hm.2]
      rw [hstep]
      refine ⟨⟨cell, hcell⟩, promoterInv_congr _ _ rfl rfl rfl hP,
        hT.2.1 (by rw [hcellOf]; exact hm), fun hl => ?_⟩
      have hnf : cell.collectDone_ = false :=
        local_noneFolded _ hP hl _ (mem_of_findCell _ _ _ hcell)
      rw [hm.1] at hnf
      exact absurd hnf (by decide)
    · have hre : cell.recheck n = true := by
        unfold LocalRefCount.recheck
        cases hd : cell.collectDone_ with
        | false => simp
        | true =>
          have : cell.collectCount_ = n := by
            by_contra hne
            exact hm ⟨hd, hne⟩
          simp [this]
      have hstep : stepThread t op ⟨s, ThreadPc.check n, pr⟩
          = ⟨s, ThreadPc.returned true 42, pr⟩ := by
        simp [stepThread, hcellOf, hre]
      rw [hstep]
      refine ⟨⟨cell, hcell⟩, promoterInv_congr _ _ rfl rfl rfl hP, rfl,
        hT.2.2 (by rw [hcellOf]; exact hm), ?_⟩
      intro hd
      show (cellOf s t).collectCount_ = (cellOf s t).count_
      rw [hcellOf] at hd ⊢
      rw [hcount]
      by_contra hne
      exact hm ⟨hd, hne⟩
  | globalPath =>
    by_cases hl : s.state_ = State.GLOBAL_TRANSITION
    · have hstep : stepThread t op ⟨s, ThreadPc.globalPath, pr⟩
          = ⟨s, ThreadPc.lockMutex, pr⟩ := by
        simp [stepThread, hl]
      rw [hstep]
      exact ⟨⟨cell, hcell⟩, promoterInv_congr _ _ rfl rfl rfl hP, hT⟩
    · have hstep : stepThread t op ⟨s, ThreadPc.globalPath, pr⟩
          = ⟨s, ThreadPc.arithmetic, pr⟩ := by
        simp [stepThread, hl]
      rw [hstep]
      refine ⟨⟨cell, hcell⟩, promoterInv_congr _ _ rfl rfl rfl hP, hT.1, ?_⟩
      have hnl : s.state_ ≠ State.LOCAL := hT.2
      show s.state_ = State.GLOBAL
      cases hs : s.state_ with
      | LOCAL => exact absurd hs hnl
      | GLOBAL_TRANSITION => exact absurd hs hl
      | GLOBAL => rfl
  | lockMutex =>
    have hnl : s.state_ ≠ State.LOCAL := hT.2
    cases pr with
    | enter => exact absurd hP.1 hnl
    | finished =>
      have hstep : stepThread t op ⟨s, ThreadPc.lockMutex, PromoterPc.finished⟩
          = ⟨s, ThreadPc.arithmetic, PromoterPc.finished⟩ := by
        simp [stepThread, Race.mutexHeld]
      rw [hstep]
      exact ⟨⟨cell, hcell⟩, hP, hT.1, hP.1⟩
    | walk i => exact ⟨⟨cell, hcell⟩, hP, hT⟩
    | leave => exact ⟨⟨cell, hcell⟩, hP, hT⟩
    | unlock => exact ⟨⟨cell, hcell⟩, hP, hT⟩
  | arithmetic =>
    have hst : s.state_ = State.GLOBAL := hT.2
    have hall := global_allFolded _ hP hst
    have hg : s.globalCount_ = q0 := by
      have hq : s.Q = q0 := hT.1
      simp only [TLRefCount.Q, unfoldedSum_allFolded _ hall] at hq
      omega
    obtain ⟨r, s', ha, hst', hloc', hout⟩ := globalArithmetic_outcome op s q0 hst hg
    have hstep : stepThread t op ⟨s, ThreadPc.arithmetic, pr⟩
        = ⟨s', ThreadPc.returned false r, pr⟩ := by
      simp [stepThread, ha]
    rw [hstep]
    refine ⟨⟨cell, by show findCell s'.localCount_ t = some cell; rw [hloc']; exact hcell⟩,
      promoterInv_congr ⟨s, ThreadPc.arithmetic, pr⟩ _ rfl (hst'.trans hst.symm)
        (by show flags s'.localCount_ = flags s.localCount_; rw [hloc']) hP,
      hst', hout⟩
  | returned fast r => exact ⟨⟨cell, hcell⟩, hP, hT⟩
  | assertFailed => exact ⟨⟨cell, hcell⟩, hP, hT⟩

theorem runSchedule_inv (t : Nat) (op : Op) (q0 : Int) (sched : List Bool) (c : Race)
    (h : RaceInv t op q0 c) : RaceInv t op q0 (runSchedule t op sched c) := by
  induction sched generalizing c with
  | nil => exact h
  | cons b rest ih =>
    cases b with
    | true => exact ih _ (stepThread_inv t op q0 c h)
    | false => exact ih _ (stepPromoter_inv t op q0 c h)

theorem promoterSteps_inv (t : Nat) (op : Op) (q0 : Int) (n : Nat) (c : Race)
    (h : RaceInv t op q0 c) : RaceInv t op q0 (promoterSteps n c) := by
  induction n generalizing c with
  | zero => exact h
  | succ n ih => exact ih _ (stepPromoter_inv t op q0 c h)

theorem threadSteps_inv (t : Nat) (op : Op) (q0 : Int) (n : Nat) (c : Race)
    (h : RaceInv t op q0 c) : RaceInv t op q0 (threadSteps t op n c) := by
  induction n generalizing c with
  | zero => exact h
  | succ n ih => exact ih _ (stepThread_inv t op q0 c h)

theorem stepPromoter_fuel (c : Race) : promoterFuel (stepPromoter c) ≤ promoterFuel c - 1 := by
  obtain ⟨s, th, pr⟩ := c
  cases pr with
  | enter => simp [stepPromoter, promoterFuel, useGlobalEnter]
  | walk i =>
    by_cases hi : i < s.localCount_.length
    · simp only [stepPromoter, hi, if_true, promoterFuel, collectCellAt, collectAt_length]
      omega
    · simp only [stepPromoter, hi, if_false, promoterFuel]
      omega
  | leave => simp [stepPromoter, promoterFuel]
  | unlock => simp [stepPromoter, promoterFuel]
  | finished => simp [stepPromoter, promoterFuel]

/-- With enough steps the promoter finishes. -/
theorem promoterSteps_finished (n : Nat) (c : Race) (h : promoterFuel c ≤ n) :
    (promoterSteps n c).promoter = PromoterPc.finished := by
  induction n generalizing c with
  | zero =>
    obtain ⟨s, th, pr⟩ := c
    cases pr <;> simp [promoterFuel] at h
    rfl
  | succ n ih =>
    have := stepPromoter_fuel c
    exact ih _ (by omega)

theorem promoterFuel_le (c : Race) : promoterFuel c ≤ c.counter.localCount_.length + 4 := by
  obtain ⟨s, th, pr⟩ := c
  cases pr <;> simp [promoterFuel]
  omega

theorem stepThread_promoter (t : Nat) (op : Op) (c : Race) :
    (stepThread t op c).promoter = c.promoter := by
  obtain ⟨s, th, pr⟩ := c
  cases th <;> simp only [stepThread] <;> (try split) <;> rfl

theorem threadSteps_promoter (t : Nat) (op : Op) (n : Nat) (c : Race) :
    (threadSteps t op n c).promoter = c.promoter := by
  induction n generalizing c with
  | zero => rfl
  | succ n ih => rw [threadSteps, ih, stepThread_promoter]

theorem stepThread_fuel (t : Nat) (op : Op) (c : Race) (h : c.promoter = PromoterPc.finished) :
    threadFuel (stepThread t op c) ≤ threadFuel c - 1 := by
  obtain ⟨s, th, pr⟩ := c
  simp only at h
  subst h
  cases th <;> simp only [stepThread, Race.mutexHeld] <;> (try split) <;>
    simp_all [threadFuel]

/-- With the promoter finished, seven steps take the calling thread to its return. -/
theorem threadSteps_done (t : Nat) (op : Op) (n : Nat) (c : Race)
    (hpr : c.promoter = PromoterPc.finished) (h : threadFuel c ≤ n) :
    threadFuel (threadSteps t op n c) = 0 := by
  induction n generalizing c with
  | zero => exact Nat.le_zero.mp h
  | succ n ih =>
    have := stepThread_fuel t op c hpr
    exact ih _ (by rw [stepThread_promoter]; exact hpr) (by omega)

theorem threadFuel_le (c : Race) : threadFuel c ≤ 7 := by
  obtain ⟨s, th, pr⟩ := c
  cases th <;> simp [threadFuel]

theorem start_inv (s : TLRefCount) (t : Nat) (op : Op) (hp : s.state_ = State.LOCAL)
    (hn : NoneFolded s.localCount_) : RaceInv t op s.Q (Race.start s t) := by
  have hreg : findCell (s.access t).2.localCount_ t = some (cellOf s t) := by
    rw [access_eq]; exact findCell_storeCell_same _ _ _
  have hnf : NoneFolded (s.access t).2.localCount_ := by
    intro e he
    rcases access_mem s t e he with h | h
    · exact hn e h
    · rw [h]; rfl
  have hst : (s.access t).2.state_ = State.LOCAL := by rw [access_state]; exact hp
  refine ⟨⟨_, hreg⟩, ⟨hst, hnf⟩, access_Q s t, fun hd => ?_⟩
  have hfalse : (cellOf s t).collectDone_ = false := hnf _ (mem_of_findCell _ _ _ hreg)
  have hd' : (cellOf (s.access t).2 t).collectDone_ = true := hd
  rw [cellOf_of_findCell _ t _ hreg, hfalse] at hd'
  exact absurd hd' (by decide)

theorem writeCount_access (s : TLRefCount) (t : Nat) (delta : Int) :
    writeCount (s.access t).2 t delta =
      { s with localCount_ :=
          storeCell s.localCount_ t { cellOf s t with count_ := (cellOf s t).count_ + delta } } := by
  have h1 : findCell (s.access t).2.localCount_ t = some (cellOf s t) := by
    rw [access_eq]; exact findCell_storeCell_same _ _ _
  have h2 := cellOf_of_findCell _ t _ h1
  simp only [writeCount, h2]
  simp [access_eq, storeCell_storeCell]

/-- Without a concurrent promotion the steps of the calling thread are the whole call: in
the local phase they end in the state and with the result of `operator++` or `operator--`
through the fast path, in the global phase through the global path. -/
theorem thread_alone (s s' : TLRefCount) (t : Nat) (op : Op) (r : Int)
    (h : step s (t, op) = some (r, s')) :
    (s.state_ = State.LOCAL →
      threadSteps t op 7 ⟨(s.access t).2, ThreadPc.firstRead, PromoterPc.enter⟩
        = ⟨s', ThreadPc.returned true r, PromoterPc.enter⟩) ∧
    (s.state_ = State.GLOBAL →
      threadSteps t op 7 ⟨(s.access t).2, ThreadPc.firstRead, PromoterPc.finished⟩
        = ⟨s', ThreadPc.returned false r, PromoterPc.finished⟩) := by
  refine ⟨fun hl => ?_, fun hg => ?_⟩
  · have hw := writeCount_access s t op.delta
    cases op with
    | inc =>
      have h' : s.increment t = some (r, s') := h
      rw [increment_local s t hl] at h'
      obtain ⟨hr, hs⟩ := Prod.mk.inj (Option.some.inj h')
      subst hr; subst hs
      simp only [threadSteps, stepThread, access_state, hl, ne_eq, not_true_eq_false, if_false,
        hw]
      rfl
    | dec =>
      have h' : s.decrement t = some (r, s') := h
      rw [decrement_local s t hl] at h'
      obtain ⟨hr, hs⟩ := Prod.mk.inj (Option.some.inj h')
      subst hr; subst hs
      simp only [threadSteps, stepThread, access_state, hl, ne_eq, not_true_eq_false, if_false,
        hw]
      rfl
  · have hnl : s.state_ ≠ State.LOCAL := by rw [hg]; decide
    have ha : globalArithmetic op (s.access t).2 = some (r, s') := by
      cases op with
      | inc =>
        have h' : s.increment t = some (r, s') := h
        rw [increment_not_local s t hnl] at h'
        exact h'
      | dec =>
        have h' : s.decrement t = some (r, s') := h
        rw [decrement_not_local s t hnl] at h'
        exact h'
    simp [threadSteps, stepThread, access_state, hg, ha]

theorem collectAt_append (pre rest : List (Nat × LocalRefCount)) (u : Nat) (c : LocalRefCount)
    (g : Int) :
    collectAt (pre ++ (u, c) :: rest) pre.length g
      = (pre ++ (u, (c.collect g).1) :: rest, (c.collect g).2) := by
  induction pre with
  | nil => rfl
  | cons e pre ih =>
    obtain ⟨v, d⟩ := e
    show collectAt ((v, d) :: (pre ++ (u, c) :: rest)) (pre.length + 1) g = _
    simp only [collectAt, ih]
    rfl

theorem collectAll_length (r : List (Nat × LocalRefCount)) (g : Int) :
    (collectAll r g).1.length = r.length := by
  induction r generalizing g with
  | nil => rfl
  | cons e rest ih =>
    obtain ⟨u, c⟩ := e
    simp [collectAll, ih]

theorem promoterSteps_add (a b : Nat) (c : Race) :
    promoterSteps (a + b) c = promoterSteps b (promoterSteps a c) := by
  induction a generalizing c with
  | zero => simp [promoterSteps]
  | succ a ih =>
    have h1 : a + 1 + b = (a + b) + 1 := by omega
    rw [h1, promoterSteps, ih, promoterSteps]

/-- The walk of the promoter over the cells from position `pre.length` on is `collectAll`
on those cells. -/
theorem promoterSteps_walk (rest pre : List (Nat × LocalRefCount)) (st : State) (g : Int)
    (th : ThreadPc) :
    promoterSteps rest.length ⟨⟨st, pre ++ rest, g⟩, th, PromoterPc.walk pre.length⟩
      = ⟨⟨st, pre ++ (collectAll rest g).1, (collectAll rest g).2⟩, th,
          PromoterPc.walk (pre.length + rest.length)⟩ := by
  induction rest generalizing pre g with
  | nil => simp [promoterSteps, collectAll]
  | cons e rest ih =>
    obtain ⟨u, c⟩ := e
    have hlt : pre.length < (pre ++ (u, c) :: rest).length := by simp
    have hstep : stepPromoter ⟨⟨st, pre ++ (u, c) :: rest, g⟩, th, PromoterPc.walk pre.length⟩
        = ⟨⟨st, (pre ++ [(u, (c.collect g).1)]) ++ rest, (c.collect g).2⟩, th,
            PromoterPc.walk (pre ++ [(u, (c.collect g).1)]).length⟩ := by
      simp [stepPromoter, hlt, collectCellAt, collectAt_append]
    rw [List.length_cons, promoterSteps, hstep, ih]
    simp [collectAll, Nat.add_assoc, Nat.add_comm 1]

/-- Without a concurrent call the steps of the promoter are a whole `useGlobal()`. -/
theorem promoter_alone (s : TLRefCount) (th : ThreadPc) :
    promoterSteps (s.localCount_.length + 4) ⟨s, th, PromoterPc.enter⟩
      = ⟨s.useGlobal, th, PromoterPc.finished⟩ := by
  have hw := promoterSteps_walk s.localCount_ [] State.GLOBAL_TRANSITION s.globalCount_ th
  simp only [List.nil_append, List.length_nil, Nat.zero_add] at hw
  have h4 : s.localCount_.length + 4 = 1 + (s.localCount_.length + 3) := by omega
  have henter : promoterSteps 1 ⟨s, th, PromoterPc.enter⟩
      = ⟨⟨State.GLOBAL_TRANSITION, s.localCount_, s.globalCount_⟩, th, PromoterPc.walk 0⟩ := rfl
  rw [h4, promoterSteps_add, henter, promoterSteps_add, hw]
  have hlen : ¬ s.localCount_.length < (collectAll s.localCount_ s.globalCount_).1.length := by
    rw [collectAll_length]; omega
  simp only [promoterSteps, stepPromoter, hlen, if_false, useGlobalLeave, TLRefCount.useGlobal]

/-- With every store in memory at once, the race ends as follows: both threads have run to
their end, the phase is GLOBAL, and the update is counted once, through the fold when
`update` returned true and through the global path otherwise, except for an increment that
the global path refuses at a count of zero. -/
theorem raceEnd_outcome (s : TLRefCount) (t : Nat) (op : Op) (sched : List Bool)
    (hp : s.state_ = State.LOCAL) (hn : NoneFolded s.localCount_) :
    ∃ fast r,
      (raceEnd s t op sched).thread = ThreadPc.returned fast r ∧
      (raceEnd s t op sched).promoter = PromoterPc.finished ∧
      (raceEnd s t op sched).counter.state_ = State.GLOBAL ∧
      (fast = true → r = 42 ∧
        (raceEnd s t op sched).counter.globalCount_ = s.Q + op.delta ∧
        (cellOf (raceEnd s t op sched).counter t).collectDone_ = true ∧
        (cellOf (raceEnd s t op sched).counter t).collectCount_
          = (cellOf (raceEnd s t op sched).counter t).count_) ∧
      (fast = false → op = Op.dec →
        (raceEnd s t op sched).counter.globalCount_ = s.Q - 1 ∧ r = s.Q - 1) ∧
      (fast = false → op = Op.inc →
        (s.Q ≠ 0 ∧ (raceEnd s t op sched).counter.globalCount_ = s.Q + 1 ∧ r = s.Q + 1) ∨
        (s.Q = 0 ∧ (raceEnd s t op sched).counter.globalCount_ = 0 ∧ r = 0)) := by
  have h0 := runSchedule_inv t op s.Q sched _ (start_inv s t op hp hn)
  unfold raceEnd
  generalize runSchedule t op sched (Race.start s t) = c at h0 ⊢
  have h1 := promoterSteps_inv t op s.Q (c.counter.localCount_.length + 4) c h0
  have hfin := promoterSteps_finished (c.counter.localCount_.length + 4) c (promoterFuel_le c)
  generalize hc1 : promoterSteps (c.counter.localCount_.length + 4) c = c1 at h1 hfin
  have h2 := threadSteps_inv t op s.Q 7 c1 h1
  have hdone := threadSteps_done t op 7 c1 hfin (threadFuel_le c1)
  have hpr := (threadSteps_promoter t op 7 c1).trans hfin
  have hf : finish t op c = threadSteps t op 7 c1 := by rw [finish, hc1]
  rw [hf]
  generalize threadSteps t op 7 c1 = f at h2 hdone hpr ⊢
  obtain ⟨cnt, th, pr⟩ := f
  simp only at hpr
  subst hpr
  obtain ⟨⟨cell, hcell⟩, hP, hT⟩ := h2
  have hst : cnt.state_ = State.GLOBAL := hP.1
  have hg : cnt.globalCount_ = cnt.Q := by
    simp [TLRefCount.Q, unfoldedSum_allFolded _ hP.2]
  have hfolded : (cellOf cnt t).collectDone_ = true := by
    have hc : findCell cnt.localCount_ t = some cell := hcell
    rw [cellOf_of_findCell cnt t cell hc]
    exact hP.2 _ (List.mem_map_of_mem (fun e => e.2.collectDone_) (mem_of_findCell _ _ _ hc))
  cases th with
  | returned fast r =>
    refine ⟨fast, r, rfl, rfl, hst, fun hfast => ?_, fun hfast hop => ?_, fun hfast hop => ?_⟩
    · subst hfast
      exact ⟨hT.1, by show cnt.globalCount_ = _; rw [hg]; exact hT.2.1, hfolded,
        hT.2.2 hfolded⟩
    · subst hfast
      subst hop
      exact hT.2
    · subst hfast
      subst hop
      exact hT.2
  | assertFailed => exact absurd hT id
  | firstRead => simp [threadFuel] at hdone
  | write => simp [threadFuel] at hdone
  | secondRead n => simp [threadFuel] at hdone
  | check n => simp [threadFuel] at hdone
  | globalPath => simp [threadFuel] at hdone
  | lockMutex => simp [threadFuel] at hdone
  | arithmetic => simp [threadFuel] at hdone

theorem flush_after_step (t : Nat) (op : Op) (c : Race) :
    flushBuffer t (stepBuffered t op { race := c, buffer := none })
      = { race := stepThread t op c, buffer := none } := by
  obtain ⟨s, th, pr⟩ := c
  cases th <;> rfl

theorem runTurns_visibleAtOnce (t : Nat) (op : Op) (sched : List Bool) (c : Race) :
    runTurns t op (visibleAtOnce sched) { race := c, buffer := none }
      = { race := runSchedule t op sched c, buffer := none } := by
  induction sched generalizing c with
  | nil => rfl
  | cons x rest ih =>
    cases x with
    | true =>
      show runTurns t op (visibleAtOnce rest)
        (flushBuffer t (stepBuffered t op { race := c, buffer := none })) = _
      rw [flush_after_step, ih]
      rfl
    | false =>
      show runTurns t op (visibleAtOnce rest) { race := stepPromoter c, buffer := none } = _
      rw [ih]
      rfl

theorem runTurns_append (t : Nat) (op : Op) (xs ys : List Turn) (b : BufferedRace) :
    runTurns t op (xs ++ ys) b = runTurns t op ys (runTurns t op xs b) := by
  induction xs generalizing b with
  | nil => rfl
  | cons x rest ih => exact ih _

theorem runTurns_promoter (t : Nat) (op : Op) (n : Nat) (c : Race) :
    runTurns t op (List.replicate n Turn.promoter) { race := c, buffer := none }
      = { race := promoterSteps n c, buffer := none } := by
  induction n generalizing c with
  | zero => rfl
  | succ n ih =>
    show runTurns t op (List.replicate n Turn.promoter)
      { race := stepPromoter c, buffer := none } = _
    rw [ih]
    rfl

theorem runSchedule_thread (t : Nat) (op : Op) (n : Nat) (c : Race) :
    runSchedule t op (List.replicate n true) c = threadSteps t op n c := by
  induction n generalizing c with
  | zero => rfl
  | succ n ih => exact ih _

/-- With every store in memory at once the race with the store buffer is the sequentially
consistent race. -/
theorem bufferedRaceEnd_visibleAtOnce (s : TLRefCount) (t : Nat) (op : Op)
    (sched : List Bool) :
    bufferedRaceEnd s t op (visibleAtOnce sched)
      = { race := raceEnd s t op sched, buffer := none } := by
  unfold bufferedRaceEnd finishTurns
  rw [runTurns_visibleAtOnce, runTurns_append, runTurns_promoter, runTurns_visibleAtOnce,
    runSchedule_thread]
  rfl

/-- C14, as stated, fails.  On a counter whose count is 0 in the local phase (`localAtZero`,
a fresh counter after one decrement), an increment by thread 0 races with `useGlobal()`, every store in memory at once; when the
promoter folds the cell between the caller's first load of `state_` and its write, `update`
returns false, the global path finds `globalCount_ = 0` and refuses: the call returns 0 and
the final `globalCount_` is 0, so the increment is in no count.  When the caller runs first
the fold captures the increment and the final `globalCount_` is 1. -/
theorem race_increment_refused :
    Reachable localAtZero ∧ localAtZero.state_ = State.LOCAL ∧ localAtZero.Q = 0 ∧
    bufferedRaceEnd localAtZero 0 Op.inc (visibleAtOnce foldBeforeWrite) =
      { race :=
          { counter :=
              { state_ := State.GLOBAL,
                localCount_ := [(0, { count_ := 0, collectCount_ := -1, collectDone_ := true })],
                globalCount_ := 0 },
            thread := ThreadPc.returned false 0,
            promoter := PromoterPc.finished },
        buffer := none } ∧
    bufferedRaceEnd localAtZero 0 Op.inc (visibleAtOnce callFirst) =
      { race :=
          { counter :=
              { state_ := State.GLOBAL,
                localCount_ := [(0, { count_ := 0, collectCount_ := 0, collectDone_ := true })],
                globalCount_ := 1 },
            thread := ThreadPc.returned true 42,
            promoter := PromoterPc.finished },
        buffer := none } :=
  ⟨Reachable.decrement Reachable.init
      (by decide : TLRefCount.new.decrement 0 = some (42, localAtZero)),
    by decide, by decide, by decide, by decide⟩

/-- The execution the source does not exclude: no fence stands between the store to `count_`
(line 141) and the second load of `state_` (line 143).  On a fresh counter thread 0
increments: it loads LOCAL, issues its store, loads LOCAL again and returns 42 with
`update` true while the store is still in its buffer; `useGlobal()` then folds the cell with
the old `count_ = 0`; the store reaches memory last.  The final `globalCount_` is 1, not 2:
the increment is lost although it reported success. -/
theorem race_update_lost_in_store_buffer :
    bufferedRaceEnd TLRefCount.new 0 Op.inc storeAfterFold =
      { race :=
          { counter :=
              { state_ := State.GLOBAL,
                localCount_ := [(0, { count_ := 1, collectCount_ := 0, collectDone_ := true })],
                globalCount_ := 1 },
            thread := ThreadPc.returned true 42,
            promoter := PromoterPc.finished },
        buffer := none } ∧
    TLRefCount.new.Q + Op.inc.delta = 2 := by
  decide

/-- C14, amended.  Let a counter be in a state reached from a fresh counter by whole calls
and still in the local phase, and let `q0` be its count `Q`.  For every interleaving of the steps of one increment or decrement by thread
`t` (first load of `state_`, write of `count_`, second load of `state_`, check under
`collectMutex_`, and the steps of the global path) with the steps of `useGlobal()` (set
GLOBAL_TRANSITION, `collect()` cell by cell, set GLOBAL, release `globalMutex_`) in which
the write of `count_` is in memory before the next step of either thread, both run to their
end, the phase is GLOBAL, the assertion holds, and: either `update` returned true, the call
returned 42, the cell of `t` is folded with `collectCount_` equal to its `count_`, and the
final `globalCount_` is `q0 + delta`; or `update` returned false and the call went through
the global path after the promotion, where a decrement gives `q0 - 1` and an increment gives
`q0 + 1`, except that an increment at `q0 = 0` is refused, returns 0 and leaves
`globalCount_ = 0`.  The update is never counted twice.  Nothing is said here of the
interleavings in which the write stays in the store buffer. -/
theorem race_counts_once (s : TLRefCount) (t : Nat) (op : Op) (sched : List Bool)
    (hs : Reachable s) (hp : s.state_ = State.LOCAL) :
    (bufferedRaceEnd s t op (visibleAtOnce sched)).buffer = none ∧
    ∃ fast r,
      (bufferedRaceEnd s t op (visibleAtOnce sched)).race.thread = ThreadPc.returned fast r ∧
      (bufferedRaceEnd s t op (visibleAtOnce sched)).race.promoter = PromoterPc.finished ∧
      (bufferedRaceEnd s t op (visibleAtOnce sched)).race.counter.state_ = State.GLOBAL ∧
      (fast = true → r = 42 ∧
        (bufferedRaceEnd s t op (visibleAtOnce sched)).race.counter.globalCount_
          = s.Q + op.delta ∧
        (cellOf (bufferedRaceEnd s t op (visibleAtOnce sched)).race.counter t).collectDone_
          = true ∧
        (cellOf (bufferedRaceEnd s t op (visibleAtOnce sched)).race.counter t).collectCount_
          = (cellOf (bufferedRaceEnd s t op (visibleAtOnce sched)).race.counter t).count_) ∧
      (fast = false → op = Op.dec →
        (bufferedRaceEnd s t op (visibleAtOnce sched)).race.counter.globalCount_ = s.Q - 1 ∧
        r = s.Q - 1) ∧
      (fast = false → op = Op.inc →
        (s.Q ≠ 0 ∧
          (bufferedRaceEnd s t op (visibleAtOnce sched)).race.counter.globalCount_ = s.Q + 1 ∧
          r = s.Q + 1) ∨
        (s.Q = 0 ∧
          (bufferedRaceEnd s t op (visibleAtOnce sched)).race.counter.globalCount_ = 0 ∧
          r = 0)) := by
  rw [bufferedRaceEnd_visibleAtOnce]
  exact ⟨rfl, raceEnd_outcome s t op sched hp ((reachable_inv s hs).2 hp)⟩

/-- The amended C14 on a fresh counter, a decrement by thread 0 and the interleaving
`foldBeforeWrite` with every store in memory at once: the fold misses the write, and the
decrement is applied on the global path, from 1 to 0. -/
theorem race_counts_once_witness :
    Reachable TLRefCount.new ∧ TLRefCount.new.state_ = State.LOCAL ∧
    (bufferedRaceEnd TLRefCount.new 0 Op.dec (visibleAtOnce foldBeforeWrite)).race.thread
      = ThreadPc.returned false 0 ∧
    (bufferedRaceEnd TLRefCount.new 0 Op.dec
      (visibleAtOnce foldBeforeWrite)).race.counter.globalCount_ = 0 ∧
    ∃ fast r,
      (bufferedRaceEnd TLRefCount.new 0 Op.dec (visibleAtOnce foldBeforeWrite)).race.thread
        = ThreadPc.returned fast r ∧
      (bufferedRaceEnd TLRefCount.new 0 Op.dec (visibleAtOnce foldBeforeWrite)).race.promoter
        = PromoterPc.finished ∧
      (bufferedRaceEnd TLRefCount.new 0 Op.dec
        (visibleAtOnce foldBeforeWrite)).race.counter.state_ = State.GLOBAL ∧
      (fast = false → Op.dec = Op.dec →
        (bufferedRaceEnd TLRefCount.new 0 Op.dec
          (visibleAtOnce foldBeforeWrite)).race.counter.globalCount_ = TLRefCount.new.Q - 1 ∧
        r = TLRefCount.new.Q - 1) :=
  ⟨Reachable.init, rfl, by decide, by decide,
    (race_counts_once TLRefCount.new 0 Op.dec foldBeforeWrite Reachable.init rfl).2.imp
      (fun _ h => h.imp (fun _ h => ⟨h.1, h.2.1, h.2.2.1, h.2.2.2.2.1⟩))⟩

end folly
